import Mathlib

set_option maxRecDepth 100000

/-!
Verification of the k9s prompt-autocompletion engine
(`internal/model/history.go`, `internal/model/spellcheck.go`).

Shallow embedding conventions:
* Go strings are modelled as `List Char` (`GoStr`).  The Go code indexes
  bytes (`word[pos]`) and casts them to runes; on the ASCII inputs this
  engine receives (text is ASCII-lowered) byte indexing and char indexing
  coincide, so one `Char` stands for one byte.
* Go `nil` pointers to tree nodes are the `nil` constructor of the node
  inductive; the iterative walks of the Go code are rendered as the
  equivalent structural recursions (a `newTernarySearchTreeNode(c)`
  created for a missing left/right child is immediately descended into by
  the Go loop, which deterministically builds an `equal`-chain: that chain
  is `insertFresh` below).
* In-place mutation is rendered by returning the updated structure.
* `words []*string` (with `nil` tombstones) is `List (Option GoStr)`.
* Go's unstable `sort.Slice`/`sort.Strings` are modelled with
  `List.insertionSort`; the sorting keys in every use are drawn from a
  total order, so any correct sort produces the same list.
* `InsertAll` iterates a Go map (`map[*string]int`); the model inserts in
  slice order, one deterministic refinement of the unspecified map order.
* The mutexes and refresh timestamps of `PromptAutocompleter` have no
  shallow rendering and are omitted; no claim below depends on them
  except the concurrency claim, which is reported as not statable.
-/

abbrev GoStr := List Char

/-- Convert a Lean string literal to the `List Char` model of Go strings. -/
def gs (s : String) : GoStr := s.data

/-- `wordData` from history.go: pointer to the word, its position in the
tree's word-slot array, and its refcount (a Go `int`). -/
structure wordData where
  WordPtr : GoStr
  Position : Nat
  Refcount : Int
deriving DecidableEq, Repr

/-- `TernarySearchTreeNode`: Go's node with three child pointers, a rune
value and optional word data.  `nil` is Go's nil pointer. -/
inductive TernarySearchTreeNode where
  | nil : TernarySearchTreeNode
  | node (Left Right Equal : TernarySearchTreeNode) (Value : Char)
      (Data : Option wordData) : TernarySearchTreeNode
deriving DecidableEq, Repr

namespace TernarySearchTreeNode

/-- `newTernarySearchTreeNode(value)`. -/
def newNode (value : Char) : TernarySearchTreeNode :=
  .node .nil .nil .nil value none

/-- Field access: `node.Data` (nil pointer has no data). -/
def data : TernarySearchTreeNode → Option wordData
  | .nil => none
  | .node _ _ _ _ d => d

/-- Field access: `node.Equal`. -/
def equal : TernarySearchTreeNode → TernarySearchTreeNode
  | .nil => .nil
  | .node _ _ e _ _ => e

/-- Field access: `node.Value` (never read on nil in the Go code). -/
def value : TernarySearchTreeNode → Char
  | .nil => Char.ofNat 0
  | .node _ _ _ v _ => v

/-- The word-data update performed at the final character of `Insert`:
fresh data gets refcount 1, existing data keeps its word, takes the new
position and bumps the refcount. -/
def bumpData (full : GoStr) (pos : Nat) : Option wordData → wordData
  | none => ⟨full, pos, 1⟩
  | some d => ⟨d.WordPtr, pos, d.Refcount + 1⟩

/-- The `equal`-chain the Go insert loop builds below a freshly created
left/right child: each missing node is created with the current character
and descended into, so the remaining suffix becomes a chain of `equal`
children whose last node receives the word data. -/
def insertFresh (full : GoStr) (pos : Nat) : GoStr → TernarySearchTreeNode
  | [] => .nil
  | [c] => .node .nil .nil .nil c (some ⟨full, pos, 1⟩)
  | c :: c' :: rest => .node .nil .nil (insertFresh full pos (c' :: rest)) c none

/-- The branching loop of `TernarySearchTreeNode.Insert` (everything after
the root-sentinel fixup), carrying the full word `full` whose pointer is
stored at the terminal node.  When the Go loop finds a nil left/right
child it creates `newTernarySearchTreeNode(c)` and immediately descends
into it, deterministically building the `equal`-chain `insertFresh`; the
recursion below therefore descends into nil children directly and builds
the fresh chain there, which yields the identical tree. -/
def insertLoop (full : GoStr) (pos : Nat) :
    TernarySearchTreeNode → GoStr → TernarySearchTreeNode
  | n, [] => n
  | .nil, w => insertFresh full pos w
  | .node l r e v d, c :: rest =>
    if c < v then .node (insertLoop full pos l (c :: rest)) r e v d
    else if v < c then .node l (insertLoop full pos r (c :: rest)) e v d
    else
      match rest with
      | [] => .node l r e v (some (bumpData full pos d))
      | _ :: _ => .node l r (insertLoop full pos e rest) v d

/-- `TernarySearchTreeNode.Insert(wordPtr, position)`: empty words are a
no-op; a root still carrying the 0 sentinel value adopts the first
character of the word; then the branching loop runs. -/
def Insert (t : TernarySearchTreeNode) (w : GoStr) (position : Nat) :
    TernarySearchTreeNode :=
  match w with
  | [] => t
  | c :: _ =>
    let t' := match t with
      | .nil => TernarySearchTreeNode.nil
      | .node l r e v d =>
          if v = Char.ofNat 0 then TernarySearchTreeNode.node l r e c d
          else TernarySearchTreeNode.node l r e v d
    insertLoop w position t' w

/-- `TernarySearchTreeNode.Get(word)`: returns the node where the descent
consumed the whole word, or `none` (Go nil) — also for the empty word. -/
def Get : TernarySearchTreeNode → GoStr → Option TernarySearchTreeNode
  | _, [] => none
  | .nil, _ => none
  | .node l r e v d, c :: rest =>
    if c < v then Get l (c :: rest)
    else if v < c then Get r (c :: rest)
    else
      match rest with
      | [] => some (.node l r e v d)
      | _ :: _ => Get e rest

/-- `node.isWord()`. -/
def isWord (t : TernarySearchTreeNode) : Bool := t.data.isSome

/-- `TernarySearchTreeNode.Has(word)`. -/
def Has (t : TernarySearchTreeNode) (w : GoStr) : Bool :=
  match Get t w with
  | some n => n.isWord
  | none => false

/-- `TernarySearchTreeNode.Delete(word)`: decrement the refcount of the
terminal node's data; clear the data and report the freed position when it
reaches zero, report `none` (Go's `-1`) otherwise. -/
def Delete : TernarySearchTreeNode → GoStr → TernarySearchTreeNode × Option Nat
  | n, [] => (n, none)
  | .nil, _ => (.nil, none)
  | .node l r e v d, c :: rest =>
    if c < v then
      let p := Delete l (c :: rest)
      (.node p.1 r e v d, p.2)
    else if v < c then
      let p := Delete r (c :: rest)
      (.node l p.1 e v d, p.2)
    else
      match rest with
      | [] =>
        match d with
        | none => (.node l r e v none, none)
        | some dd =>
          if dd.Refcount - 1 ≤ 0 then (.node l r e v none, some dd.Position)
          else (.node l r e v (some ⟨dd.WordPtr, dd.Position, dd.Refcount - 1⟩), none)
      | _ :: _ =>
        let p := Delete e rest
        (.node l r p.1 v d, p.2)

/-- The word data collected by `Walk` (in-order: left, self, equal, right). -/
def walkData : TernarySearchTreeNode → List wordData
  | .nil => []
  | .node l r e _ d => walkData l ++ d.toList ++ walkData e ++ walkData r

/-- `TernarySearchTreeNode.PrefixSearch(prefix)`: the prefix node's own
data, if any, followed by the in-order walk of its `equal` subtree. -/
def PrefixSearch (t : TernarySearchTreeNode) (prefix' : GoStr) : List wordData :=
  match Get t prefix' with
  | none => []
  | some m => m.data.toList ++ m.equal.walkData

end TernarySearchTreeNode

/-- `sortMode`. -/
inductive sortMode where
  | sortByWord
  | sortByPosition
deriving DecidableEq, Repr

/-- `TernarySearchTree`: root node, word-slot array (with `none`
tombstones), longest stored word length, live length (a Go `int`) and
tombstone count (a Go `uint`). -/
structure TernarySearchTree where
  root : TernarySearchTreeNode
  words : List (Option GoStr)
  longestWord : Nat
  length : Int
  dirty : Nat
deriving DecidableEq, Repr

/-- `NewTernarySearchTree()`. -/
def NewTernarySearchTree : TernarySearchTree :=
  ⟨.node .nil .nil .nil (Char.ofNat 0) none, [], 0, 0, 0⟩

namespace TernarySearchTree

/-- `TernarySearchTree.Insert(word)`: note that the Go wrapper appends a
word slot and bumps `length` even when the node insert was a refcount bump
or an empty-word no-op. -/
def Insert (t : TernarySearchTree) (w : GoStr) : TernarySearchTree :=
  { root := t.root.Insert w t.words.length
    words := t.words ++ [some w]
    longestWord := max t.longestWord w.length
    length := t.length + 1
    dirty := t.dirty }

/-- `TernarySearchTree.InsertAll(words)`: first pass reserves slots (and
updates `longestWord`) for every word the original tree does not yet hold
— duplicates within the input all pass this test — then the reserved words
are inserted (the Go map iteration is modelled in slice order). -/
def InsertAll (t : TernarySearchTree) (ws : List GoStr) : TernarySearchTree :=
  let fresh := ws.filter fun w => ¬ t.root.Has w
  let pairs := fresh.enum.map fun p => (p.2, t.words.length + p.1)
  { root := pairs.foldl (fun n q => n.Insert q.1 q.2) t.root
    words := t.words ++ fresh.map some
    longestWord := fresh.foldl (fun m w => max m w.length) t.longestWord
    length := t.length + fresh.length
    dirty := t.dirty }

/-- `TernarySearchTree.Has(word)`. -/
def Has (t : TernarySearchTree) (w : GoStr) : Bool := t.root.Has w

/-- `TernarySearchTree.HasPrefix(prefix)`. -/
def HasPrefix (t : TernarySearchTree) (p : GoStr) : Bool :=
  (t.root.Get p).isSome

/-- `TernarySearchTree.Len()`. -/
def Len (t : TernarySearchTree) : Int := t.length

/-- `TernarySearchTree.Delete(word)`: clear the freed slot, decrement the
live length, count a tombstone. -/
def Delete (t : TernarySearchTree) (w : GoStr) : TernarySearchTree :=
  match t.root.Delete w with
  | (root', none) => { t with root := root' }
  | (root', some p) =>
    { root := root'
      words := t.words.set p none
      longestWord := t.longestWord
      length := t.length - 1
      dirty := t.dirty + 1 }

/-- `TernarySearchTree.Words()`: the non-tombstoned slots in order. -/
def Words (t : TernarySearchTree) : List GoStr := t.words.filterMap id

/-- `TernarySearchTree.Reset()`. -/
def Reset (_t : TernarySearchTree) : TernarySearchTree :=
  ⟨.node .nil .nil .nil (Char.ofNat 0) none, [], 0, 0, 0⟩

/-- `TernarySearchTree.Autocomplete(prefix, sortBy)`: fast negative on
over-long prefixes, prefix search, optional sort by position, projection
to the stored words. -/
def Autocomplete (t : TernarySearchTree) (p : GoStr) (sortBy : sortMode) :
    List GoStr :=
  if p.length > t.longestWord then []
  else
    let ms := t.root.PrefixSearch p
    let ms := match sortBy with
      | .sortByPosition =>
          List.insertionSort (fun a b : wordData => a.Position ≤ b.Position) ms
      | .sortByWord => ms
    ms.map (·.WordPtr)

/-- `DIRTY_THRESHOLD = 0.33`.  Go computes
`t.dirty > uint(float64(t.length)*DIRTY_THRESHOLD)`; the model uses exact
natural arithmetic `33 * length / 100`.  Every theorem below that touches
`Sync` case-splits on this condition and holds for either outcome, so the
float rounding of the Go expression cannot affect any stated result. -/
def dirtyExceeded (t : TernarySearchTree) : Bool :=
  t.dirty > 33 * t.length.toNat / 100

/-- `TernarySearchTree.Sync(words)`: reset on empty input or when too
dirty, insert everything, then delete every previously indexed word that
is absent from the new list. -/
def Sync (t : TernarySearchTree) (ws : List GoStr) : TernarySearchTree :=
  if ws = [] then t.Reset
  else
    let t1 := if t.dirtyExceeded then t.Reset else t
    let indexed := t1.Words
    let t2 := t1.InsertAll ws
    indexed.foldl (fun acc w => if w ∈ ws then acc else acc.Delete w) t2

end TernarySearchTree

/-- `StringSearch(terms, text, sortBy)`: linear substring scan over the
word-slot array, skipping tombstones and empty strings, sorted only in
`sortByWord` mode. -/
def StringSearch (terms : List (Option GoStr)) (text : GoStr)
    (sortBy : sortMode) : List GoStr :=
  let ms := terms.filterMap fun o =>
    match o with
    | none => none
    | some w => if w = [] then none else if text <:+: w then some w else none
  match sortBy with
  | .sortByWord => List.insertionSort (· ≤ ·) ms
  | .sortByPosition => ms

/-- Supported suggest modes (`SuggestNone`, `SuggestAutoComplete`,
`SuggestFullText` — Go `int` constants 0, 1, 2). -/
inductive SuggestMode where
  | SuggestNone
  | SuggestAutoComplete
  | SuggestFullText
deriving DecidableEq, Repr

/-- ASCII rendering of `strings.ToLower` (inputs are ASCII). -/
def toLowerChar (c : Char) : Char :=
  if 'A' ≤ c ∧ c ≤ 'Z' then Char.ofNat (c.toNat + 32) else c

/-- `strings.ToLower(text)`. -/
def toLowerStr (s : GoStr) : GoStr := s.map toLowerChar

/-- `unicode.IsSpace` on the characters this engine can see. -/
def isSpaceGo (c : Char) : Bool :=
  c = ' ' ∨ c = '\t' ∨ c = '\n' ∨ c = Char.ofNat 11 ∨ c = Char.ofNat 12 ∨
    c = '\r' ∨ c.toNat = 133 ∨ c.toNat = 160

/-- Helper for `fields`: cut the string at whitespace characters keeping
(possibly empty) chunks; never returns `[]`. -/
def fieldChunks : GoStr → List GoStr
  | [] => [[]]
  | c :: rest =>
    match fieldChunks rest with
    | [] => [[c]]
    | w :: ws => if isSpaceGo c then [] :: w :: ws else (c :: w) :: ws

/-- `strings.Fields(text)`: maximal runs of non-whitespace characters. -/
def fields (s : GoStr) : List GoStr := (fieldChunks s).filter (· ≠ [])

/-- `strings.LastIndex(text, " ")` for a single character, as a Go `int`
(`-1` when absent). -/
def lastIndexChar : GoStr → Char → Int
  | [], _ => -1
  | x :: xs, c =>
    let r := lastIndexChar xs c
    if r ≥ 0 then r + 1 else if x = c then 0 else -1

/-- `PromptAutocompleter`: the four ternary search trees and the suggest
mode.  The refresh timestamps, rate, update callback, cluster identity and
the two mutexes of the Go struct have no shallow rendering (wall-clock
time and locking) and are omitted; no definition below reads them. -/
structure PromptAutocompleter where
  cmdHistoryTst : TernarySearchTree
  aliasTst : TernarySearchTree
  namespacesTst : TernarySearchTree
  configSetTst : TernarySearchTree
  mode : SuggestMode
deriving Repr

/-- `NewPromptAutocompleter(updateFn, refreshRate)`: four empty trees,
mode `SuggestAutoComplete`. -/
def NewPromptAutocompleter : PromptAutocompleter :=
  ⟨NewTernarySearchTree, NewTernarySearchTree, NewTernarySearchTree,
    NewTernarySearchTree, .SuggestAutoComplete⟩

namespace PromptAutocompleter

/-- `PromptAutocompleter.Reset()`: clears history, aliases and namespaces
(the config-set tree is retained). -/
def Reset (p : PromptAutocompleter) : PromptAutocompleter :=
  { p with
    cmdHistoryTst := p.cmdHistoryTst.Reset
    aliasTst := p.aliasTst.Reset
    namespacesTst := p.namespacesTst.Reset }

/-- `PromptAutocompleter.Index(name, words)`: the history bucket is
reversed in place before syncing; unknown buckets are ignored. -/
def Index (p : PromptAutocompleter) (name : String) (ws : List GoStr) :
    PromptAutocompleter :=
  if name = "history" then
    { p with cmdHistoryTst := p.cmdHistoryTst.Sync ws.reverse }
  else if name = "aliases" then { p with aliasTst := p.aliasTst.Sync ws }
  else if name = "namespaces" then
    { p with namespacesTst := p.namespacesTst.Sync ws }
  else if name = "k9sconfig-set" then
    { p with configSetTst := p.configSetTst.Sync ws }
  else p

/-- `PromptAutocompleter.All()`: aliases sorted, then (FullText mode only)
namespaces sorted, then the history words in stored order. -/
def All (p : PromptAutocompleter) : List GoStr :=
  let aliases := List.insertionSort (· ≤ ·) p.aliasTst.Words
  let entries :=
    aliases ++
      if p.mode = .SuggestFullText then
        List.insertionSort (· ≤ ·) p.namespacesTst.Words
      else []
  entries ++ p.cmdHistoryTst.Words

/-- `PromptAutocompleter.Search(text)`: substring search over history (by
position), namespaces and aliases (each by word). -/
def Search (p : PromptAutocompleter) (text0 : GoStr) : List GoStr :=
  let text := toLowerStr text0
  StringSearch p.cmdHistoryTst.words text .sortByPosition ++
    StringSearch p.namespacesTst.words text .sortByWord ++
    StringSearch p.aliasTst.words text .sortByWord

end PromptAutocompleter

/-- `disableNamespaceFor` (frozen literal): verbs whose second token never
receives namespace completion. -/
def disableNamespaceFor : List GoStr :=
  [gs "alias", gs "aliases", gs "clusterrole", gs "clusterroles",
   gs "clusterrolebinding", gs "clusterrolebindings", gs "context",
   gs "contexts", gs "cr", gs "crb", gs "csr", gs "ctx", gs "namespace",
   gs "namespaces", gs "ns", gs "k9sconfig-set"]

/-- `isResourceNamepaced(res)`: true iff `res` is not in
`disableNamespaceFor`. -/
def isResourceNamepaced (res : GoStr) : Bool := !(disableNamespaceFor.contains res)

namespace PromptAutocompleter

/-- The history block of `Autocomplete`: history matches sorted by
position with the last element rotated to the front. -/
def historyBlock (p : PromptAutocompleter) (text : GoStr) : List GoStr :=
  let ms := p.cmdHistoryTst.Autocomplete text .sortByPosition
  match ms.getLast? with
  | none => []
  | some last => last :: ms.dropLast

/-- `PromptAutocompleter.Autocomplete(text)`: leading-space texts get
nothing; otherwise lowercase, tokenize (a single token followed by a
trailing blank gains an empty second token), emit the rotated history
block, then dispatch on the token count exactly as the Go `switch`. -/
def Autocomplete (p : PromptAutocompleter) (text0 : GoStr) : List GoStr :=
  if text0.head? = some ' ' then []
  else
    let text := toLowerStr text0
    let terms0 := fields text
    let terms :=
      if terms0.length = 1 ∧ text.getLast? = some ' ' then terms0 ++ [[]]
      else terms0
    let entries := p.historyBlock text
    match terms with
    | [_] =>
      if entries = [] then
        entries ++ p.aliasTst.Autocomplete text .sortByWord
      else entries
    | [t1, t2] =>
      if t2.length > 0 ∧ text.getLast? = some ' ' then entries
      else
        let target? : Option TernarySearchTree :=
          if isResourceNamepaced t1 then some p.namespacesTst
          else if t1 = gs "k9sconfig-set" then some p.configSetTst
          else none
        match target? with
        | none => entries
        | some target =>
          if t2 = [] then entries ++ target.Words
          else
            let ms := target.Autocomplete t2 .sortByWord
            entries ++ ms.filterMap fun s =>
              let suggestion :=
                text.take (lastIndexChar text ' ' + 1).toNat ++ s
              if p.cmdHistoryTst.root.Has suggestion then none
              else some suggestion
    | _ => entries

/-- `PromptAutocompleter.Suggest(text)`: empty text yields `All()`,
otherwise dispatch on the mode (any other mode yields Go `nil`). -/
def Suggest (p : PromptAutocompleter) (text : GoStr) : List GoStr :=
  if text = [] then p.All
  else
    match p.mode with
    | .SuggestAutoComplete => p.Autocomplete text
    | .SuggestFullText => p.Search text
    | .SuggestNone => []

end PromptAutocompleter

/-- `Candidate` from spellcheck.go. -/
structure Candidate where
  Word : GoStr
  Suggestion : GoStr
  Score : Int
deriving DecidableEq, Repr

/-- The spellchecker alphabet: the 26 lowercase letters plus dash, slash
and dot. -/
def symbols : List Char := (String.data "abcdefghijklmnopqrstuvwxyz-/.")

/-- `NaiveSpellChecker`. -/
structure NaiveSpellChecker where
  tree : TernarySearchTree
  minimumWordLength : Nat
deriving Repr

namespace NaiveSpellChecker

/-- `delete(word, candidates)`: drop one character, keep tree prefixes. -/
def delete (s : NaiveSpellChecker) (w : GoStr) (cands : List GoStr) :
    List GoStr :=
  (List.range w.length).foldl (fun acc i =>
    let candidate := w.take i ++ w.drop (i + 1)
    if s.tree.HasPrefix candidate then acc ++ [candidate] else acc) cands

/-- `transpose(word, candidates)`: swap one adjacent pair, keep tree
prefixes. -/
def transpose (s : NaiveSpellChecker) (w : GoStr) (cands : List GoStr) :
    List GoStr :=
  (List.range (w.length - 1)).foldl (fun acc i =>
    let candidate :=
      w.take i ++ [w.getD (i + 1) (Char.ofNat 0), w.getD i (Char.ofNat 0)] ++
        w.drop (i + 2)
    if s.tree.HasPrefix candidate then acc ++ [candidate] else acc) cands

/-- `replace(word, candidates)`: descend to the node of `word[:i]` and try
every alphabet symbol against `symbol + word[i+1:]` from that node.  (For
`i = 0` the Go `Get("")` returns nil, so the first character is never
replaced.) -/
def replace (s : NaiveSpellChecker) (w : GoStr) (cands : List GoStr) :
    List GoStr :=
  (List.range w.length).foldl (fun acc i =>
    match s.tree.root.Get (w.take i) with
    | none => acc
    | some node =>
      symbols.foldl (fun acc2 sym =>
        if (node.Get (sym :: w.drop (i + 1))).isSome then
          acc2 ++ [w.take i ++ sym :: w.drop (i + 1)]
        else acc2) acc) cands

/-- `insert(word, candidates)`: insert one alphabet symbol at each
position, keep tree prefixes. -/
def insert (s : NaiveSpellChecker) (w : GoStr) (cands : List GoStr) :
    List GoStr :=
  (List.range (w.length + 1)).foldl (fun acc i =>
    symbols.foldl (fun acc2 sym =>
      let candidate := w.take i ++ sym :: w.drop i
      if s.tree.HasPrefix candidate then acc2 ++ [candidate] else acc2) acc)
    cands

end NaiveSpellChecker

/-- `unique(words)`: deduplicate through a scratch tree, keeping first
occurrences in order. -/
def unique (ws : List GoStr) : List GoStr :=
  (ws.foldl (fun t item => if t.Has item then t else t.Insert item)
    NewTernarySearchTree).Words

namespace NaiveSpellChecker

/-- `variations(word)`: deletions, transposes, replacements and insertions
valid for the tree, deduplicated. -/
def variations (s : NaiveSpellChecker) (w : GoStr) : List GoStr :=
  unique (s.insert w (s.replace w (s.transpose w (s.delete w []))))

/-- `Candidates(word)`: expand the word into variations, autocomplete each
through the reference tree, drop suggestions shorter than the input, and
keep one entry per suggestion (last writer wins via the `seen` node). -/
def Candidates (s : NaiveSpellChecker) (w : GoStr) : List Candidate :=
  if w.length < s.minimumWordLength then []
  else
    let step := fun (acc : List Candidate × TernarySearchTreeNode)
        (item : GoStr) =>
      (s.tree.Autocomplete item .sortByWord).foldl
        (fun (acc2 : List Candidate × TernarySearchTreeNode) suggestion =>
          if suggestion.length < w.length then acc2
          else
            match acc2.2.Get suggestion with
            | some (.node _ _ _ _ (some d)) =>
              (acc2.1.set d.Position ⟨item, suggestion, 0⟩, acc2.2)
            | _ =>
              (acc2.1 ++ [⟨item, suggestion, 0⟩],
                acc2.2.Insert suggestion acc2.1.length))
        acc
    ((s.variations w).foldl step
      ([], TernarySearchTreeNode.node .nil .nil .nil (Char.ofNat 0) none)).1

end NaiveSpellChecker

/-! ## Concrete scenario states -/

/-- The autocompleter state of the literal spec scenario: aliases
`{alias1, alias2}`, namespaces `{ns1, ns2}`, history
`{history1, history2 ns2}` (most recent first, as callers pass it). -/
def scenarioPrompt : PromptAutocompleter :=
  ((NewPromptAutocompleter.Index "history"
      [gs "history1", gs "history2 ns2"]).Index "aliases"
      [gs "alias1", gs "alias2"]).Index "namespaces" [gs "ns1", gs "ns2"]

/-- The reference tree of the spellchecker scenario. -/
def spellScenarioTree : TernarySearchTree :=
  NewTernarySearchTree.InsertAll [gs "po", gs "pod", gs "deploy", gs "deployment"]

/-- The spellchecker of the scenario, `minimumWordLength = 3`. -/
def spellScenarioChecker : NaiveSpellChecker := ⟨spellScenarioTree, 3⟩

/-- Lexicographic sort of a word list (the order `Autocomplete(_, ByWord)`
is specified to produce). -/
def sortLex (ws : List GoStr) : List GoStr := List.insertionSort (· ≤ ·) ws

/-- C1: with aliases {alias1, alias2}, namespaces {ns1, ns2} and history
{history1, "history2 ns2"} indexed, `Suggest "history2 n"` in AutoComplete
mode returns exactly `["history2 ns2", "history2 ns1"]`: the rotated
history prefix match first, then the namespace-completed suggestion
"history2 ns1", while "history2 ns1"'s sibling "history2 ns2" is not
suggested a second time because it is already present in history. -/
theorem suggest_history2_scenario :
    scenarioPrompt.Suggest (gs "history2 n") =
      [gs "history2 ns2", gs "history2 ns1"] ∧
    scenarioPrompt.historyBlock (toLowerStr (gs "history2 n")) =
      [gs "history2 ns2"] ∧
    scenarioPrompt.cmdHistoryTst.Has (gs "history2 ns2") = true ∧
    scenarioPrompt.mode = .SuggestAutoComplete := by decide

/-- C7: with reference TST {po, pod, deploy, deployment} and
`minimumWordLength = 3`, the set of suggestion strings produced by
`Candidates` is {pod} for "pdo", {deploy, deployment} for "delpoy",
"deply" and "depoly", and {deployment} for "dployment"; and every
candidate's suggestion is at least as long as the input. -/
theorem spellchecker_scenarios :
    ((spellScenarioChecker.Candidates (gs "pdo")).map (·.Suggestion)).toFinset
        = {gs "pod"} ∧
    ((spellScenarioChecker.Candidates (gs "delpoy")).map (·.Suggestion)).toFinset
        = {gs "deploy", gs "deployment"} ∧
    ((spellScenarioChecker.Candidates (gs "deply")).map (·.Suggestion)).toFinset
        = {gs "deploy", gs "deployment"} ∧
    ((spellScenarioChecker.Candidates (gs "depoly")).map (·.Suggestion)).toFinset
        = {gs "deploy", gs "deployment"} ∧
    ((spellScenarioChecker.Candidates (gs "dployment")).map (·.Suggestion)).toFinset
        = {gs "deployment"} ∧
    ((spellScenarioChecker.Candidates (gs "pdo")).all
        fun c => (gs "pdo").length ≤ c.Suggestion.length) = true ∧
    ((spellScenarioChecker.Candidates (gs "delpoy")).all
        fun c => (gs "delpoy").length ≤ c.Suggestion.length) = true ∧
    ((spellScenarioChecker.Candidates (gs "deply")).all
        fun c => (gs "deply").length ≤ c.Suggestion.length) = true ∧
    ((spellScenarioChecker.Candidates (gs "depoly")).all
        fun c => (gs "depoly").length ≤ c.Suggestion.length) = true ∧
    ((spellScenarioChecker.Candidates (gs "dployment")).all
        fun c => (gs "dployment").length ≤ c.Suggestion.length) = true := by
  decide

/-! ## Counterexample states -/

/-- A tree built by inserting a set of words one by one (the tree C2
quantifies over). -/
def buildTree (ws : List GoStr) : TernarySearchTree :=
  ws.foldl TernarySearchTree.Insert NewTernarySearchTree

/-- C2 counterexample: (i) for the empty prefix the code returns `[]`
(`Get("")` is nil) although every stored word has the empty prefix;
(ii) a stored word whose first character is NUL collides with the root's
0 sentinel — after inserting `"\x00a"` then `"b"`, the root value is
re-adopted and `Autocomplete "b"` also emits the stale `"\x00a"` data. -/
theorem autocomplete_byword_counterexample :
    ([gs "a"].Nodup ∧ [gs "a"].all (fun w => ¬ w.isEmpty) = true ∧
      (buildTree [gs "a"]).Autocomplete [] .sortByWord = [] ∧
      sortLex ([gs "a"].filter fun w => decide ([] <+: w)) = [gs "a"]) ∧
    ([[Char.ofNat 0, 'a'], gs "b"].Nodup ∧
      [[Char.ofNat 0, 'a'], gs "b"].all (fun w => ¬ w.isEmpty) = true ∧
      (buildTree [[Char.ofNat 0, 'a'], gs "b"]).Autocomplete (gs "b") .sortByWord
        = [gs "b", [Char.ofNat 0, 'a']] ∧
      sortLex ([[Char.ofNat 0, 'a'], gs "b"].filter
        fun w => decide (gs "b" <+: w)) = [gs "b"]) := by decide

/-- C5 counterexample: the word `"\x00"` leaves the root value at the 0
sentinel, so a later `Insert "a"` re-adopts the root and bumps the
refcount of the stale `"\x00"` data: starting from a tree not containing
"a", one `Insert "a"` followed by one `Delete "a"` leaves `Has "a"` true
(the claim demands false for `k = 1`). -/
theorem refcount_law_counterexample :
    (NewTernarySearchTree.Insert [Char.ofNat 0]).Has (gs "a") = false ∧
    (((NewTernarySearchTree.Insert [Char.ofNat 0]).Insert (gs "a")).Delete
        (gs "a")).Has (gs "a") = true := by decide

/-- C8 counterexample: the tree-level `Insert ""` still appends a word
slot and bumps `length`, so `Len()` and `Words()` change. -/
theorem insert_empty_counterexample :
    (NewTernarySearchTree.Insert (gs "")).Len ≠ NewTernarySearchTree.Len ∧
    (NewTernarySearchTree.Insert (gs "")).Words ≠ NewTernarySearchTree.Words := by
  decide

/-- An autocompleter whose config-set bucket holds `{foo}`. -/
def configSetPrompt : PromptAutocompleter :=
  NewPromptAutocompleter.Index "k9sconfig-set" [gs "foo"]

/-- C4 counterexample: `"k9sconfig-set"` is in `disableNamespaceFor`, yet
the two-token branch (which tests `isResourceNamepaced` first and
`== "k9sconfig-set"` second) selects the config-set tree and appends its
completions: the result is not just the (empty) history block. -/
theorem disabled_two_terms_counterexample :
    gs "k9sconfig-set" ∈ disableNamespaceFor ∧
    fields (toLowerStr (gs "k9sconfig-set f")) = [gs "k9sconfig-set", gs "f"] ∧
    configSetPrompt.historyBlock (toLowerStr (gs "k9sconfig-set f")) = [] ∧
    configSetPrompt.Autocomplete (gs "k9sconfig-set f")
      = [gs "k9sconfig-set foo"] := by decide

/-- An autocompleter whose history holds the space-led command " a b c". -/
def spaceHistoryPrompt : PromptAutocompleter :=
  NewPromptAutocompleter.Index "history" [gs " a b c"]

/-- C10 counterexample: a three-token text that begins with a blank is
rejected by the leading-space guard and yields `[]`, although its rotated
history prefix matches are non-empty. -/
theorem three_terms_counterexample :
    (fields (toLowerStr (gs " a b c"))).length = 3 ∧
    spaceHistoryPrompt.Autocomplete (gs " a b c") = [] ∧
    spaceHistoryPrompt.historyBlock (toLowerStr (gs " a b c"))
      = [gs " a b c"] := by decide

/-- C3 counterexample: (i) after inserting "a" twice, `Sync ["b"]`
decrements the refcount twice but only the last slot is tombstoned, so
`Words()` still contains "a"; (ii) a NUL-led stored word aliases with the
root sentinel and `Sync ["c"]` leaves `Has "ca"` true; (iii) syncing the
empty word never creates node data, so `Has ""` stays false. -/
theorem sync_live_set_counterexample :
    (gs "a" ∈ (((NewTernarySearchTree.Insert (gs "a")).Insert
        (gs "a")).Sync [gs "b"]).Words ∧ gs "a" ∉ [gs "b"]) ∧
    (((NewTernarySearchTree.Insert [Char.ofNat 0, 'a']).Sync [gs "c"]).Has
        (gs "ca") = true ∧ gs "ca" ∉ [gs "c"]) ∧
    ((NewTernarySearchTree.Sync [[]]).Has [] = false ∧
      ([] : GoStr) ∈ [([] : GoStr)]) := by decide

/-! ## General theorems on the autocompleter -/

/-- C6: for every state and mode, `Suggest ""` returns `All()`: a sorted
permutation of the alias words, then a sorted permutation of the namespace
words exactly when the mode is FullText (and nothing in its place in any
other mode), then the history words in stored order. -/
theorem suggest_empty_is_all (p : PromptAutocompleter) :
    p.Suggest [] = p.All ∧
    ∃ a n, p.All = a ++ n ++ p.cmdHistoryTst.Words ∧
      a.Perm p.aliasTst.Words ∧ List.Sorted (· ≤ ·) a ∧
      n.Perm (if p.mode = .SuggestFullText then p.namespacesTst.Words else []) ∧
      List.Sorted (· ≤ ·) n := by
  refine ⟨by simp [PromptAutocompleter.Suggest],
    List.insertionSort (· ≤ ·) p.aliasTst.Words,
    (if p.mode = .SuggestFullText then
      List.insertionSort (· ≤ ·) p.namespacesTst.Words else []),
    ?_, List.perm_insertionSort _ _, List.sorted_insertionSort _ _, ?_, ?_⟩
  · simp [PromptAutocompleter.All, List.append_assoc]
  · split
    · exact List.perm_insertionSort _ _
    · exact List.Perm.refl _
  · split
    · exact List.sorted_insertionSort _ _
    · exact List.sorted_nil

/-- C8 (amended): the tree-level `Insert ""` leaves the root — and hence
`Has` and `HasPrefix` for every string — as well as `longestWord` and
`dirty` unchanged, but appends an empty-string slot to `words` (visible in
`Words()`) and increments `Len()`. -/
theorem insert_empty_effect (t : TernarySearchTree) :
    (t.Insert []).root = t.root ∧
    (∀ w, (t.Insert []).Has w = t.Has w) ∧
    (∀ w, (t.Insert []).HasPrefix w = t.HasPrefix w) ∧
    (t.Insert []).Words = t.Words ++ [[]] ∧
    (t.Insert []).Len = t.Len + 1 ∧
    (t.Insert []).longestWord = t.longestWord ∧
    (t.Insert []).dirty = t.dirty := by
  refine ⟨rfl, fun w => rfl, fun w => rfl, ?_, rfl, ?_, rfl⟩
  · simp [TernarySearchTree.Insert, TernarySearchTree.Words]
  · simp [TernarySearchTree.Insert]

/-- C4 (amended): in AutoComplete mode, for input text (not starting with
a blank) that tokenizes to exactly two terms whose first term is in
`disableNamespaceFor` *and is not* `k9sconfig-set`, the two-token branch
selects no target and appends nothing: the result is exactly the history
block.  (For `k9sconfig-set` itself the code targets the config-set tree;
see the counterexample.) -/
theorem disabled_two_terms_history_only (p : PromptAutocompleter)
    (text t1 t2 : GoStr)
    (hsp : text.head? ≠ some ' ')
    (hf : fields (toLowerStr text) = [t1, t2])
    (hdis : t1 ∈ disableNamespaceFor)
    (hk : t1 ≠ gs "k9sconfig-set") :
    p.Autocomplete text = p.historyBlock (toLowerStr text) := by
  have hnam : isResourceNamepaced t1 = false := by
    simp [isResourceNamepaced, hdis]
  unfold PromptAutocompleter.Autocomplete
  rw [if_neg hsp]
  simp only [hf, List.length_cons, List.length_nil]
  rw [if_neg (by simp)]
  split
  · rename_i heq
    simp at heq
  · rename_i s1 s2 heq
    injection heq with e1 rest
    injection rest with e2 _
    subst e1
    subst e2
    by_cases hc : List.length t2 > 0 ∧ List.getLast? (toLowerStr text) = some ' '
    · rw [if_pos hc]
    · rw [if_neg hc]
      simp [hnam, hk]
  · rename_i h1 h2
    exact absurd rfl (h2 t1 t2)

/-- C4 witness: the namespaced-off verb "ns" with a second term gets only
the history block. -/
theorem disabled_two_terms_witness :
    (gs "ns x").head? ≠ some ' ' ∧
    fields (toLowerStr (gs "ns x")) = [gs "ns", gs "x"] ∧
    gs "ns" ∈ disableNamespaceFor ∧ gs "ns" ≠ gs "k9sconfig-set" ∧
    scenarioPrompt.Autocomplete (gs "ns x") =
      scenarioPrompt.historyBlock (toLowerStr (gs "ns x")) :=
  ⟨by decide, by decide, by decide, by decide,
    disabled_two_terms_history_only scenarioPrompt (gs "ns x") (gs "ns")
      (gs "x") (by decide) (by decide) (by decide) (by decide)⟩

/-- C10 (amended): for input of three or more whitespace-separated terms
that does not begin with a blank, `Autocomplete` returns exactly the
rotated history prefix matches for the full text — the alias branch and
the two-token branch are never reached.  (A text that begins with a blank
is cut off by the leading-space guard instead; see the counterexample.) -/
theorem three_terms_history_only (p : PromptAutocompleter) (text : GoStr)
    (hsp : text.head? ≠ some ' ')
    (h3 : 3 ≤ (fields (toLowerStr text)).length) :
    p.Autocomplete text = p.historyBlock (toLowerStr text) := by
  obtain ⟨a, b, c, rest, hf⟩ :
      ∃ a b c rest, fields (toLowerStr text) = a :: b :: c :: rest := by
    rcases h : fields (toLowerStr text) with _ | ⟨a, _ | ⟨b, _ | ⟨c, rest⟩⟩⟩
    · rw [h] at h3; simp at h3
    · rw [h] at h3; simp at h3
    · rw [h] at h3; simp at h3
    · exact ⟨a, b, c, rest, rfl⟩
  unfold PromptAutocompleter.Autocomplete
  rw [if_neg hsp]
  simp only [hf, List.length_cons]
  rw [if_neg (by rintro ⟨h1, -⟩; omega)]

/-- C10 witness: a three-token command gets only its rotated history
matches. -/
theorem three_terms_witness :
    (gs "history2 ns2 x").head? ≠ some ' ' ∧
    3 ≤ (fields (toLowerStr (gs "history2 ns2 x"))).length ∧
    scenarioPrompt.Autocomplete (gs "history2 ns2 x") =
      scenarioPrompt.historyBlock (toLowerStr (gs "history2 ns2 x")) :=
  ⟨by decide, by decide,
    three_terms_history_only scenarioPrompt (gs "history2 ns2 x")
      (by decide) (by decide)⟩


/-! ## Node-level descent lemmas -/

namespace TernarySearchTreeNode

/-- The word data sitting at the end of the descent for `w` (what `Has`
and `Delete` inspect). -/
def dataAt (n : TernarySearchTreeNode) (w : GoStr) : Option wordData :=
  match n.Get w with
  | none => none
  | some m => m.data

theorem Has_eq_isSome_dataAt (n : TernarySearchTreeNode) (w : GoStr) :
    n.Has w = (n.dataAt w).isSome := by
  unfold Has dataAt isWord
  cases n.Get w <;> rfl

theorem dataAt_nil (w : GoStr) : dataAt .nil w = none := by
  unfold dataAt
  cases w <;> rfl

theorem dataAt_nil_word (n : TernarySearchTreeNode) : dataAt n [] = none := by
  unfold dataAt
  cases n <;> rfl

theorem dataAt_node_lt {c v : Char} (l r e : TernarySearchTreeNode)
    (d : Option wordData) (rest : GoStr) (h : c < v) :
    dataAt (.node l r e v d) (c :: rest) = dataAt l (c :: rest) := by
  unfold dataAt
  simp [Get, h]

theorem dataAt_node_gt {c v : Char} (l r e : TernarySearchTreeNode)
    (d : Option wordData) (rest : GoStr) (h : v < c) :
    dataAt (.node l r e v d) (c :: rest) = dataAt r (c :: rest) := by
  unfold dataAt
  simp [Get, h, asymm h]

theorem dataAt_node_eq_last {v : Char} (l r e : TernarySearchTreeNode)
    (d : Option wordData) :
    dataAt (.node l r e v d) [v] = d := by
  unfold dataAt
  simp [Get, data]

theorem dataAt_node_eq_cons {v c2 : Char} (l r e : TernarySearchTreeNode)
    (d : Option wordData) (rest2 : GoStr) :
    dataAt (.node l r e v d) (v :: c2 :: rest2) = dataAt e (c2 :: rest2) := by
  unfold dataAt
  simp [Get]

theorem insertFresh_dataAt_self (full : GoStr) (pos : Nat) (w : GoStr)
    (hw : w ≠ []) : dataAt (insertFresh full pos w) w = some ⟨full, pos, 1⟩ := by
  induction w with
  | nil => exact absurd rfl hw
  | cons c rest ih =>
    cases rest with
    | nil => simp [insertFresh, dataAt_node_eq_last]
    | cons c' rest' =>
      rw [insertFresh, dataAt_node_eq_cons]
      exact ih (by simp)

theorem insertFresh_dataAt_frame (full : GoStr) (pos : Nat) (w w' : GoStr)
    (hne : w' ≠ w) : dataAt (insertFresh full pos w) w' = none := by
  induction w generalizing w' with
  | nil => simp [insertFresh, dataAt_nil]
  | cons c rest ih =>
    cases w' with
    | nil => exact dataAt_nil_word _
    | cons c' rest' =>
      cases rest with
      | nil =>
        rcases lt_trichotomy c' c with h | h | h
        · rw [insertFresh, dataAt_node_lt _ _ _ _ _ h, dataAt_nil]
        · subst h
          cases rest' with
          | nil => exact absurd rfl hne
          | cons c2 r2 =>
            rw [insertFresh, dataAt_node_eq_cons, dataAt_nil]
        · rw [insertFresh, dataAt_node_gt _ _ _ _ _ h, dataAt_nil]
      | cons c2 rest2 =>
        rcases lt_trichotomy c' c with h | h | h
        · rw [insertFresh, dataAt_node_lt _ _ _ _ _ h, dataAt_nil]
        · subst h
          cases rest' with
          | nil => rw [insertFresh, dataAt_node_eq_last]
          | cons c3 rest3 =>
            rw [insertFresh, dataAt_node_eq_cons]
            exact ih _ (by intro hh; exact hne (by rw [hh]))
        · rw [insertFresh, dataAt_node_gt _ _ _ _ _ h, dataAt_nil]

theorem insertLoop_node_lt {c v : Char} (full : GoStr) (pos : Nat)
    (l r e : TernarySearchTreeNode) (d : Option wordData) (rest : GoStr)
    (h : c < v) :
    insertLoop full pos (.node l r e v d) (c :: rest) =
      .node (insertLoop full pos l (c :: rest)) r e v d := by
  rw [insertLoop.eq_def]
  simp [h]

theorem insertLoop_node_gt {c v : Char} (full : GoStr) (pos : Nat)
    (l r e : TernarySearchTreeNode) (d : Option wordData) (rest : GoStr)
    (h : v < c) :
    insertLoop full pos (.node l r e v d) (c :: rest) =
      .node l (insertLoop full pos r (c :: rest)) e v d := by
  rw [insertLoop.eq_def]
  simp [h, asymm h]

theorem insertLoop_node_eq_last {v : Char} (full : GoStr) (pos : Nat)
    (l r e : TernarySearchTreeNode) (d : Option wordData) :
    insertLoop full pos (.node l r e v d) [v] =
      .node l r e v (some (bumpData full pos d)) := by
  rw [insertLoop.eq_def]
  simp

theorem insertLoop_node_eq_cons {v c2 : Char} (full : GoStr) (pos : Nat)
    (l r e : TernarySearchTreeNode) (d : Option wordData) (rest2 : GoStr) :
    insertLoop full pos (.node l r e v d) (v :: c2 :: rest2) =
      .node l r (insertLoop full pos e (c2 :: rest2)) v d := by
  rw [insertLoop.eq_def]
  simp

theorem insertLoop_dataAt_self (full : GoStr) (pos : Nat)
    (n : TernarySearchTreeNode) (w : GoStr) (hw : w ≠ []) :
    dataAt (insertLoop full pos n w) w = some (bumpData full pos (n.dataAt w)) := by
  induction n generalizing w with
  | nil =>
    rw [dataAt_nil]
    cases w with
    | nil => exact absurd rfl hw
    | cons c rest =>
      rw [show insertLoop full pos .nil (c :: rest) = insertFresh full pos (c :: rest) from rfl]
      rw [insertFresh_dataAt_self full pos _ (by simp)]
      rfl
  | node l r e v d ihl ihr ihe =>
    cases w with
    | nil => exact absurd rfl hw
    | cons c rest =>
      rcases lt_trichotomy c v with hlt | heq | hgt
      · rw [insertLoop_node_lt _ _ _ _ _ _ _ hlt]
        rw [dataAt_node_lt _ _ _ _ _ hlt, dataAt_node_lt _ _ _ _ _ hlt]
        exact ihl _ (by simp)
      · subst heq
        cases rest with
        | nil =>
          rw [insertLoop_node_eq_last]
          rw [dataAt_node_eq_last, dataAt_node_eq_last]
        | cons c2 rest2 =>
          rw [insertLoop_node_eq_cons]
          rw [dataAt_node_eq_cons, dataAt_node_eq_cons]
          exact ihe _ (by simp)
      · rw [insertLoop_node_gt _ _ _ _ _ _ _ hgt]
        rw [dataAt_node_gt _ _ _ _ _ hgt, dataAt_node_gt _ _ _ _ _ hgt]
        exact ihr _ (by simp)

theorem insertLoop_dataAt_frame (full : GoStr) (pos : Nat)
    (n : TernarySearchTreeNode) (w w' : GoStr) (hne : w' ≠ w) :
    dataAt (insertLoop full pos n w) w' = n.dataAt w' := by
  induction n generalizing w w' with
  | nil =>
    cases w with
    | nil => rfl
    | cons c rest =>
      rw [show insertLoop full pos .nil (c :: rest) = insertFresh full pos (c :: rest) from rfl]
      rw [insertFresh_dataAt_frame full pos _ _ hne, dataAt_nil]
  | node l r e v d ihl ihr ihe =>
    cases w with
    | nil => rfl
    | cons c rest =>
      cases w' with
      | nil => rw [dataAt_nil_word, dataAt_nil_word]
      | cons c' rest' =>
        rcases lt_trichotomy c v with hlt | heq | hgt
        · rw [insertLoop_node_lt _ _ _ _ _ _ _ hlt]
          rcases lt_trichotomy c' v with h' | h' | h'
          · rw [dataAt_node_lt _ _ _ _ _ h', dataAt_node_lt _ _ _ _ _ h']
            exact ihl _ _ hne
          · subst h'
            cases rest' with
            | nil => rw [dataAt_node_eq_last, dataAt_node_eq_last]
            | cons c2 r2 => rw [dataAt_node_eq_cons, dataAt_node_eq_cons]
          · rw [dataAt_node_gt _ _ _ _ _ h', dataAt_node_gt _ _ _ _ _ h']
        · subst heq
          cases rest with
          | nil =>
            rw [insertLoop_node_eq_last]
            rcases lt_trichotomy c' c with h' | h' | h'
            · rw [dataAt_node_lt _ _ _ _ _ h', dataAt_node_lt _ _ _ _ _ h']
            · subst h'
              cases rest' with
              | nil => exact absurd rfl hne
              | cons c2 r2 => rw [dataAt_node_eq_cons, dataAt_node_eq_cons]
            · rw [dataAt_node_gt _ _ _ _ _ h', dataAt_node_gt _ _ _ _ _ h']
          | cons c2 rest2 =>
            rw [insertLoop_node_eq_cons]
            rcases lt_trichotomy c' c with h' | h' | h'
            · rw [dataAt_node_lt _ _ _ _ _ h', dataAt_node_lt _ _ _ _ _ h']
            · subst h'
              cases rest' with
              | nil => rw [dataAt_node_eq_last, dataAt_node_eq_last]
              | cons c3 rest3 =>
                rw [dataAt_node_eq_cons, dataAt_node_eq_cons]
                exact ihe _ _ (by intro hh; exact hne (by rw [hh]))
            · rw [dataAt_node_gt _ _ _ _ _ h', dataAt_node_gt _ _ _ _ _ h']
        · rw [insertLoop_node_gt _ _ _ _ _ _ _ hgt]
          rcases lt_trichotomy c' v with h' | h' | h'
          · rw [dataAt_node_lt _ _ _ _ _ h', dataAt_node_lt _ _ _ _ _ h']
          · subst h'
            cases rest' with
            | nil => rw [dataAt_node_eq_last, dataAt_node_eq_last]
            | cons c2 r2 => rw [dataAt_node_eq_cons, dataAt_node_eq_cons]
          · rw [dataAt_node_gt _ _ _ _ _ h', dataAt_node_gt _ _ _ _ _ h']
            exact ihr _ _ hne

theorem Delete_node_lt {c v : Char} (l r e : TernarySearchTreeNode)
    (d : Option wordData) (rest : GoStr) (h : c < v) :
    Delete (.node l r e v d) (c :: rest) =
      (.node (Delete l (c :: rest)).1 r e v d, (Delete l (c :: rest)).2) := by
  rw [Delete.eq_def]
  simp [h]

theorem Delete_node_gt {c v : Char} (l r e : TernarySearchTreeNode)
    (d : Option wordData) (rest : GoStr) (h : v < c) :
    Delete (.node l r e v d) (c :: rest) =
      (.node l (Delete r (c :: rest)).1 e v d, (Delete r (c :: rest)).2) := by
  rw [Delete.eq_def]
  simp [h, asymm h]

theorem Delete_node_eq_last {v : Char} (l r e : TernarySearchTreeNode)
    (d : Option wordData) :
    Delete (.node l r e v d) [v] =
      match d with
      | none => (.node l r e v none, none)
      | some dd =>
        if dd.Refcount - 1 ≤ 0 then (.node l r e v none, some dd.Position)
        else (.node l r e v (some ⟨dd.WordPtr, dd.Position, dd.Refcount - 1⟩), none) := by
  rw [Delete.eq_def]
  simp

theorem Delete_node_eq_last_none {v : Char} (l r e : TernarySearchTreeNode) :
    Delete (.node l r e v none) [v] = (.node l r e v none, none) := by
  rw [Delete_node_eq_last]

theorem Delete_node_eq_last_some {v : Char} (l r e : TernarySearchTreeNode)
    (dd : wordData) :
    Delete (.node l r e v (some dd)) [v] =
      if dd.Refcount - 1 ≤ 0 then (.node l r e v none, some dd.Position)
      else (.node l r e v
        (some ⟨dd.WordPtr, dd.Position, dd.Refcount - 1⟩), none) := by
  rw [Delete_node_eq_last]

theorem Delete_node_eq_cons {v c2 : Char} (l r e : TernarySearchTreeNode)
    (d : Option wordData) (rest2 : GoStr) :
    Delete (.node l r e v d) (v :: c2 :: rest2) =
      (.node l r (Delete e (c2 :: rest2)).1 v d, (Delete e (c2 :: rest2)).2) := by
  rw [Delete.eq_def]
  simp

theorem Delete_nil (w : GoStr) : Delete .nil w = (.nil, none) := by
  cases w <;> rfl

/-- The refcount decrement `Delete` performs on the data it finds. -/
def decData : Option wordData → Option wordData
  | none => none
  | some d =>
    if d.Refcount - 1 ≤ 0 then none
    else some ⟨d.WordPtr, d.Position, d.Refcount - 1⟩

/-- The freed position `Delete` reports. -/
def freedPos : Option wordData → Option Nat
  | none => none
  | some d => if d.Refcount - 1 ≤ 0 then some d.Position else none

theorem Delete_spec (n : TernarySearchTreeNode) (w : GoStr) :
    dataAt (n.Delete w).1 w = decData (n.dataAt w) ∧
    (n.Delete w).2 = freedPos (n.dataAt w) := by
  induction n generalizing w with
  | nil =>
    rw [Delete_nil, dataAt_nil]
    exact ⟨rfl, rfl⟩
  | node l r e v d ihl ihr ihe =>
    cases w with
    | nil =>
      refine ⟨?_, rfl⟩
      rw [show (Delete (TernarySearchTreeNode.node l r e v d) []).1 =
        TernarySearchTreeNode.node l r e v d from rfl]
      rw [dataAt_nil_word]
      rfl
    | cons c rest =>
      rcases lt_trichotomy c v with hlt | heq | hgt
      · rw [Delete_node_lt _ _ _ _ _ hlt,
          dataAt_node_lt _ _ _ _ _ hlt, dataAt_node_lt _ _ _ _ _ hlt]
        exact ihl _
      · subst heq
        cases rest with
        | nil =>
          rw [dataAt_node_eq_last]
          cases d with
          | none =>
            rw [Delete_node_eq_last_none]
            exact ⟨dataAt_node_eq_last _ _ _ _, rfl⟩
          | some dd =>
            rw [Delete_node_eq_last_some]
            by_cases hrc : dd.Refcount - 1 ≤ 0
            · rw [if_pos hrc]
              refine ⟨?_, ?_⟩
              · rw [dataAt_node_eq_last]
                simp only [decData]
                rw [if_pos hrc]
              · simp only [freedPos]
                rw [if_pos hrc]
            · rw [if_neg hrc]
              refine ⟨?_, ?_⟩
              · rw [dataAt_node_eq_last]
                simp only [decData]
                rw [if_neg hrc]
              · simp only [freedPos]
                rw [if_neg hrc]
        | cons c2 rest2 =>
          rw [Delete_node_eq_cons, dataAt_node_eq_cons, dataAt_node_eq_cons]
          exact ihe _
      · rw [Delete_node_gt _ _ _ _ _ hgt,
          dataAt_node_gt _ _ _ _ _ hgt, dataAt_node_gt _ _ _ _ _ hgt]
        exact ihr _

theorem Delete_dataAt_frame (n : TernarySearchTreeNode) (w w' : GoStr)
    (hne : w' ≠ w) : dataAt (n.Delete w).1 w' = n.dataAt w' := by
  induction n generalizing w w' with
  | nil => rw [Delete_nil]
  | node l r e v d ihl ihr ihe =>
    cases w with
    | nil => rfl
    | cons c rest =>
      cases w' with
      | nil => rw [dataAt_nil_word, dataAt_nil_word]
      | cons c' rest' =>
        rcases lt_trichotomy c v with hlt | heq | hgt
        · rw [Delete_node_lt _ _ _ _ _ hlt]
          rcases lt_trichotomy c' v with h' | h' | h'
          · rw [dataAt_node_lt _ _ _ _ _ h', dataAt_node_lt _ _ _ _ _ h']
            exact ihl _ _ hne
          · subst h'
            cases rest' with
            | nil => rw [dataAt_node_eq_last, dataAt_node_eq_last]
            | cons c2 r2 => rw [dataAt_node_eq_cons, dataAt_node_eq_cons]
          · rw [dataAt_node_gt _ _ _ _ _ h', dataAt_node_gt _ _ _ _ _ h']
        · subst heq
          cases rest with
          | nil =>
            have hstep :
                dataAt ((Delete (.node l r e c d) [c]).1) (c' :: rest') =
                  dataAt (.node l r e c ((Delete (.node l r e c d) [c]).1).data)
                    (c' :: rest') := by
              rw [Delete_node_eq_last]
              cases d with
              | none => rfl
              | some dd =>
                by_cases hrc : dd.Refcount - 1 ≤ 0
                · simp only [if_pos hrc]
                  rfl
                · simp only [if_neg hrc]
                  rfl
            rw [hstep]
            rcases lt_trichotomy c' c with h' | h' | h'
            · rw [dataAt_node_lt _ _ _ _ _ h', dataAt_node_lt _ _ _ _ _ h']
            · subst h'
              cases rest' with
              | nil => exact absurd rfl hne
              | cons c2 r2 => rw [dataAt_node_eq_cons, dataAt_node_eq_cons]
            · rw [dataAt_node_gt _ _ _ _ _ h', dataAt_node_gt _ _ _ _ _ h']
          | cons c2 rest2 =>
            rw [Delete_node_eq_cons]
            rcases lt_trichotomy c' c with h' | h' | h'
            · rw [dataAt_node_lt _ _ _ _ _ h', dataAt_node_lt _ _ _ _ _ h']
            · subst h'
              cases rest' with
              | nil => rw [dataAt_node_eq_last, dataAt_node_eq_last]
              | cons c3 rest3 =>
                rw [dataAt_node_eq_cons, dataAt_node_eq_cons]
                exact ihe _ _ (by intro hh; exact hne (by rw [hh]))
            · rw [dataAt_node_gt _ _ _ _ _ h', dataAt_node_gt _ _ _ _ _ h']
        · rw [Delete_node_gt _ _ _ _ _ hgt]
          rcases lt_trichotomy c' v with h' | h' | h'
          · rw [dataAt_node_lt _ _ _ _ _ h', dataAt_node_lt _ _ _ _ _ h']
          · subst h'
            cases rest' with
            | nil => rw [dataAt_node_eq_last, dataAt_node_eq_last]
            | cons c2 r2 => rw [dataAt_node_eq_cons, dataAt_node_eq_cons]
          · rw [dataAt_node_gt _ _ _ _ _ h', dataAt_node_gt _ _ _ _ _ h']
            exact ihr _ _ hne

/-- Every descent through a childless, data-free node fails. -/
theorem dataAt_bare (v : Char) (w : GoStr) :
    dataAt (.node .nil .nil .nil v none) w = none := by
  cases w with
  | nil => exact dataAt_nil_word _
  | cons c rest =>
    rcases lt_trichotomy c v with h | h | h
    · rw [dataAt_node_lt _ _ _ _ _ h, dataAt_nil]
    · subst h
      cases rest with
      | nil => rw [dataAt_node_eq_last]
      | cons c2 r2 => rw [dataAt_node_eq_cons, dataAt_nil]
    · rw [dataAt_node_gt _ _ _ _ _ h, dataAt_nil]

theorem insertLoop_shape (full : GoStr) (pos : Nat)
    (l r e : TernarySearchTreeNode) (v : Char) (d : Option wordData)
    (w : GoStr) :
    ∃ l' r' e' d', insertLoop full pos (.node l r e v d) w = .node l' r' e' v d' := by
  cases w with
  | nil => exact ⟨l, r, e, d, rfl⟩
  | cons c rest =>
    rcases lt_trichotomy c v with h | h | h
    · exact ⟨_, _, _, _, insertLoop_node_lt _ _ _ _ _ _ _ h⟩
    · subst h
      cases rest with
      | nil => exact ⟨_, _, _, _, insertLoop_node_eq_last _ _ _ _ _ _⟩
      | cons c2 r2 => exact ⟨_, _, _, _, insertLoop_node_eq_cons _ _ _ _ _ _ _⟩
    · exact ⟨_, _, _, _, insertLoop_node_gt _ _ _ _ _ _ _ h⟩

theorem Delete_shape (l r e : TernarySearchTreeNode) (v : Char)
    (d : Option wordData) (w : GoStr) :
    ∃ l' r' e' d', (Delete (.node l r e v d) w).1 = .node l' r' e' v d' := by
  cases w with
  | nil => exact ⟨l, r, e, d, rfl⟩
  | cons c rest =>
    rcases lt_trichotomy c v with h | h | h
    · exact ⟨_, _, _, _, by rw [Delete_node_lt _ _ _ _ _ h]⟩
    · subst h
      cases rest with
      | nil =>
        cases d with
        | none => exact ⟨_, _, _, _, by rw [Delete_node_eq_last_none]⟩
        | some dd =>
          by_cases hrc : dd.Refcount - 1 ≤ 0
          · exact ⟨_, _, _, _, by rw [Delete_node_eq_last_some, if_pos hrc]⟩
          · exact ⟨_, _, _, _, by rw [Delete_node_eq_last_some, if_neg hrc]⟩
      | cons c2 r2 => exact ⟨_, _, _, _, by rw [Delete_node_eq_cons]⟩
    · exact ⟨_, _, _, _, by rw [Delete_node_gt _ _ _ _ _ h]⟩

theorem Delete_bare (v : Char) (w : GoStr) :
    Delete (.node .nil .nil .nil v none) w = (.node .nil .nil .nil v none, none) := by
  cases w with
  | nil => rfl
  | cons c rest =>
    rcases lt_trichotomy c v with h | h | h
    · rw [Delete_node_lt _ _ _ _ _ h, Delete_nil]
    · subst h
      cases rest with
      | nil => rw [Delete_node_eq_last_none]
      | cons c2 r2 => rw [Delete_node_eq_cons, Delete_nil]
    · rw [Delete_node_gt _ _ _ _ _ h, Delete_nil]

/-- The root precondition under which the sentinel fixup of `Insert` is
harmless for the word `w`: the root is not a nil pointer, and if it still
carries the 0 sentinel value then either it is the pristine root (no data,
no children) or `w` itself begins with the NUL character (so the fixup
rewrites the value to itself).  This is exactly the state of every root
whose stored words do not begin with NUL. -/
def sentinelClear (n : TernarySearchTreeNode) (w : GoStr) : Prop :=
  n ≠ .nil ∧ (n.value = Char.ofNat 0 →
    w.head? = some (Char.ofNat 0) ∨ n = newNode (Char.ofNat 0))

theorem Insert_node_step (l r e : TernarySearchTreeNode) (v : Char)
    (d : Option wordData) (c : Char) (rest : GoStr) (pos : Nat) :
    Insert (.node l r e v d) (c :: rest) pos =
      insertLoop (c :: rest) pos
        (if v = Char.ofNat 0 then .node l r e c d else .node l r e v d)
        (c :: rest) := rfl

theorem Insert_dataAt_self (n : TernarySearchTreeNode) (w : GoStr)
    (pos : Nat) (hw : w ≠ []) (hs : sentinelClear n w) :
    dataAt (n.Insert w pos) w = some (bumpData w pos (n.dataAt w)) := by
  obtain ⟨hn, hsent⟩ := hs
  cases n with
  | nil => exact absurd rfl hn
  | node l r e v d =>
    cases w with
    | nil => exact absurd rfl hw
    | cons c rest =>
      rw [Insert_node_step]
      by_cases hv : v = Char.ofNat 0
      · rw [if_pos hv]
        rcases hsent hv with hh | hb
        · have hc : c = Char.ofNat 0 := by simpa using hh
          rw [insertLoop_dataAt_self _ _ _ _ (by simp), hc, ← hv]
        · injection hb with h1 h2 h3 h4 h5
          subst h1; subst h2; subst h3; subst h5
          rw [insertLoop_dataAt_self _ _ _ _ (by simp), dataAt_bare, dataAt_bare]
      · rw [if_neg hv]
        exact insertLoop_dataAt_self _ _ _ _ (by simp)

theorem Insert_dataAt_frame (n : TernarySearchTreeNode) (w w' : GoStr)
    (pos : Nat) (hne : w' ≠ w) (hs : sentinelClear n w) :
    dataAt (n.Insert w pos) w' = n.dataAt w' := by
  obtain ⟨hn, hsent⟩ := hs
  cases n with
  | nil => exact absurd rfl hn
  | node l r e v d =>
    cases w with
    | nil => rfl
    | cons c rest =>
      rw [Insert_node_step]
      by_cases hv : v = Char.ofNat 0
      · rw [if_pos hv]
        rcases hsent hv with hh | hb
        · have hc : c = Char.ofNat 0 := by simpa using hh
          rw [insertLoop_dataAt_frame _ _ _ _ _ hne, hc, ← hv]
        · injection hb with h1 h2 h3 h4 h5
          subst h1; subst h2; subst h3; subst h5
          rw [insertLoop_dataAt_frame _ _ _ _ _ hne, dataAt_bare, dataAt_bare]
      · rw [if_neg hv]
        exact insertLoop_dataAt_frame _ _ _ _ _ hne

theorem Insert_sentinelClear (n : TernarySearchTreeNode) (w : GoStr)
    (pos : Nat) (hw : w ≠ []) (hs : sentinelClear n w) :
    sentinelClear (n.Insert w pos) w := by
  obtain ⟨hn, hsent⟩ := hs
  cases n with
  | nil => exact absurd rfl hn
  | node l r e v d =>
    cases w with
    | nil => exact absurd rfl hw
    | cons c rest =>
      rw [Insert_node_step]
      by_cases hv : v = Char.ofNat 0
      · rw [if_pos hv]
        obtain ⟨l', r', e', d', hsh⟩ := insertLoop_shape (c :: rest) pos l r e c d (c :: rest)
        rw [hsh]
        refine ⟨by simp, fun h0 => ?_⟩
        left
        simp only [value] at h0
        simp [h0]
      · rw [if_neg hv]
        obtain ⟨l', r', e', d', hsh⟩ := insertLoop_shape (c :: rest) pos l r e v d (c :: rest)
        rw [hsh]
        exact ⟨by simp, fun h0 => absurd h0 hv⟩

theorem Delete_sentinelClear (n : TernarySearchTreeNode) (w w' : GoStr)
    (hs : sentinelClear n w) : sentinelClear ((n.Delete w').1) w := by
  obtain ⟨hn, hsent⟩ := hs
  cases n with
  | nil => exact absurd rfl hn
  | node l r e v d =>
    by_cases hv : v = Char.ofNat 0
    · rcases hsent hv with hh | hb
      · obtain ⟨l', r', e', d', hsh⟩ := Delete_shape l r e v d w'
        rw [hsh]
        exact ⟨by simp, fun _ => Or.inl hh⟩
      · injection hb with h1 h2 h3 h4 h5
        subst h1; subst h2; subst h3; subst h5
        rw [Delete_bare]
        exact ⟨hn, hsent⟩
    · obtain ⟨l', r', e', d', hsh⟩ := Delete_shape l r e v d w'
      rw [hsh]
      exact ⟨by simp, fun h0 => absurd h0 hv⟩

end TernarySearchTreeNode

/-! ## Tree-level refcount law -/

theorem TernarySearchTree.Insert_root (t : TernarySearchTree) (w : GoStr) :
    (t.Insert w).root = t.root.Insert w t.words.length := rfl

theorem TernarySearchTree.Delete_root (t : TernarySearchTree) (w : GoStr) :
    (t.Delete w).root = (t.root.Delete w).1 := by
  unfold TernarySearchTree.Delete
  rcases h : t.root.Delete w with ⟨r', o⟩
  cases o <;> simp

theorem TernarySearchTree.Has_eq (t : TernarySearchTree) (w : GoStr) :
    t.Has w = (t.root.dataAt w).isSome :=
  TernarySearchTreeNode.Has_eq_isSome_dataAt t.root w

/-- C5 (amended): the refcount law holds for every word `w` and every
starting tree that does not contain `w`, provided the root is a real node
whose 0-sentinel state has not been adopted by a stored word (it is the
pristine root, carries a non-NUL value, or `w` itself begins with NUL):
`k` inserts followed by `k` deletes leave `Has w` false, while `k` inserts
followed by `k - 1` deletes leave it true. -/
theorem refcount_law (t : TernarySearchTree) (w : GoStr) (k : Nat)
    (hw : w ≠ [])
    (hs : TernarySearchTreeNode.sentinelClear t.root w)
    (hnot : t.Has w = false) (hk : 1 ≤ k) :
    ((fun s => TernarySearchTree.Delete s w)^[k]
        ((fun s => TernarySearchTree.Insert s w)^[k] t)).Has w = false ∧
    ((fun s => TernarySearchTree.Delete s w)^[k - 1]
        ((fun s => TernarySearchTree.Insert s w)^[k] t)).Has w = true := by
  have h0 : t.root.dataAt w = none := by
    rw [TernarySearchTree.Has_eq] at hnot
    exact Option.not_isSome_iff_eq_none.1 (by simp [hnot])
  -- insertion phase
  have ins : ∀ j : Nat,
      TernarySearchTreeNode.sentinelClear
        (((fun s => TernarySearchTree.Insert s w)^[j] t).root) w ∧
      ((((fun s => TernarySearchTree.Insert s w)^[j] t).root.dataAt w = none ∧
          j = 0) ∨
        ∃ p, (((fun s => TernarySearchTree.Insert s w)^[j] t).root).dataAt w =
            some ⟨w, p, (j : Int)⟩ ∧ 1 ≤ j) := by
    intro j
    induction j with
    | zero => exact ⟨hs, Or.inl ⟨h0, rfl⟩⟩
    | succ j ih =>
      obtain ⟨ihs, ihd⟩ := ih
      rw [Function.iterate_succ_apply']
      refine ⟨?_, ?_⟩
      · rw [TernarySearchTree.Insert_root]
        exact TernarySearchTreeNode.Insert_sentinelClear _ _ _ hw ihs
      · rw [TernarySearchTree.Insert_root]
        rw [TernarySearchTreeNode.Insert_dataAt_self _ _ _ hw ihs]
        refine Or.inr
          ⟨((fun s => TernarySearchTree.Insert s w)^[j] t).words.length, ?_, by omega⟩
        rcases ihd with ⟨hnone, hj⟩ | ⟨p, hp, hj⟩
        · rw [hnone]
          subst hj
          simp [TernarySearchTreeNode.bumpData]
        · rw [hp]
          simp only [TernarySearchTreeNode.bumpData, Option.some.injEq]
          rw [show ((j : Int) + 1) = ((j + 1 : Nat) : Int) by push_cast; ring]
  -- deletion phase, staying strictly above zero
  have del1 : ∀ (i m : Nat) (p : Nat) (t' : TernarySearchTree), i < m →
      t'.root.dataAt w = some ⟨w, p, (m : Int)⟩ →
      (((fun s => TernarySearchTree.Delete s w)^[i] t').root).dataAt w =
        some ⟨w, p, ((m - i : Nat) : Int)⟩ := by
    intro i
    induction i with
    | zero =>
      intro m p t' him hd
      simpa using hd
    | succ i ih =>
      intro m p t' him hd
      rw [Function.iterate_succ_apply]
      have hstep : ((t'.Delete w).root).dataAt w =
          some ⟨w, p, ((m - 1 : Nat) : Int)⟩ := by
        rw [TernarySearchTree.Delete_root,
          (TernarySearchTreeNode.Delete_spec t'.root w).1, hd]
        simp only [TernarySearchTreeNode.decData]
        rw [if_neg (show ¬((m : Int) - 1 ≤ 0) by omega)]
        have hcast : (m : Int) - 1 = ((m - 1 : Nat) : Int) := by omega
        rw [hcast]
      have hres := ih (m - 1) p (t'.Delete w) (by omega) hstep
      rw [hres]
      congr 2
      omega
  have del2 : ∀ (m : Nat) (p : Nat) (t' : TernarySearchTree), 1 ≤ m →
      t'.root.dataAt w = some ⟨w, p, (m : Int)⟩ →
      (((fun s => TernarySearchTree.Delete s w)^[m] t').root).dataAt w = none := by
    intro m p t' hm hd
    have hlast : (((fun s => TernarySearchTree.Delete s w)^[m - 1] t').root).dataAt w =
        some ⟨w, p, (1 : Int)⟩ := by
      rcases Nat.eq_or_lt_of_le hm with h | h
      · have hm0 : m - 1 = 0 := by omega
        rw [hm0]
        simpa [← h] using hd
      · have := del1 (m - 1) m p t' (by omega) hd
        rw [this]
        congr 2
        omega
    have hsplit : m = (m - 1) + 1 := by omega
    rw [hsplit, Function.iterate_succ_apply', TernarySearchTree.Delete_root,
      (TernarySearchTreeNode.Delete_spec _ w).1, hlast]
    simp only [TernarySearchTreeNode.decData]
    rw [if_pos (by norm_num)]
  obtain ⟨-, hdat⟩ := ins k
  rcases hdat with ⟨-, hk0⟩ | ⟨p, hp, -⟩
  · omega
  · constructor
    · rw [TernarySearchTree.Has_eq, del2 k p _ hk hp]
      rfl
    · rw [TernarySearchTree.Has_eq, del1 (k - 1) k p _ (by omega) hp]
      rfl

/-- C5 witness: on the empty tree, inserting "a" twice then deleting it
twice clears it, while deleting it once keeps it. -/
theorem refcount_law_witness :
    (gs "a" ≠ [] ∧
      TernarySearchTreeNode.sentinelClear NewTernarySearchTree.root (gs "a") ∧
      NewTernarySearchTree.Has (gs "a") = false ∧ 1 ≤ 2) ∧
    ((fun s => TernarySearchTree.Delete s (gs "a"))^[2]
        ((fun s => TernarySearchTree.Insert s (gs "a"))^[2]
          NewTernarySearchTree)).Has (gs "a") = false ∧
    ((fun s => TernarySearchTree.Delete s (gs "a"))^[2 - 1]
        ((fun s => TernarySearchTree.Insert s (gs "a"))^[2]
          NewTernarySearchTree)).Has (gs "a") = true :=
  ⟨⟨by decide, ⟨by decide, fun _ => Or.inr rfl⟩, by decide, by decide⟩,
    refcount_law NewTernarySearchTree (gs "a") 2 (by decide)
      ⟨by decide, fun _ => Or.inr rfl⟩ (by decide) (by decide)⟩

/-! ## Keys, well-formedness and walk order of a TST -/

namespace TernarySearchTreeNode

/-- The keys stored under a node, as suffixes relative to the node's
position, in in-order walk order: the key `[v]` if the node itself
carries data, and the keys of the `equal` subtree extended by `v`. -/
def keys : TernarySearchTreeNode → List GoStr
  | .nil => []
  | .node l r e v d =>
    keys l ++ (if d.isSome then [[v]] else []) ++
      (keys e).map (v :: ·) ++ keys r

theorem keys_ne_nil (n : TernarySearchTreeNode) :
    ∀ k ∈ keys n, k ≠ [] := by
  induction n with
  | nil => intro k hk; simp [keys] at hk
  | node l r e v d ihl ihr ihe =>
    intro k hk
    simp only [keys, List.mem_append, List.mem_map] at hk
    rcases hk with ((hk | hk) | hk) | hk
    · exact ihl k hk
    · rcases Option.isSome_iff_exists.1 (by
        by_contra hno
        rw [if_neg hno] at hk
        simp at hk) with ⟨dd, hdd⟩
      rw [hdd] at hk
      simp at hk
      simp [hk]
    · obtain ⟨t, ht, hkt⟩ := hk
      simp [← hkt]
    · exact ihr k hk

/-- The branching invariant of a ternary search tree: every key in the
left subtree starts with a character below the node value, every key in
the right subtree with one above it. -/
def wf : TernarySearchTreeNode → Prop
  | .nil => True
  | .node l r e v _ =>
    wf l ∧ wf e ∧ wf r ∧
    (∀ k ∈ keys l, ∃ c t, k = c :: t ∧ c < v) ∧
    (∀ k ∈ keys r, ∃ c t, k = c :: t ∧ v < c)

/-- Word-pointer correctness: every data node stores exactly the prefix
leading to it. -/
def storesFrom : TernarySearchTreeNode → GoStr → Prop
  | .nil, _ => True
  | .node l r e v d, pre =>
    (∀ dd, d = some dd → dd.WordPtr = pre ++ [v]) ∧
    storesFrom l pre ∧ storesFrom r pre ∧ storesFrom e (pre ++ [v])

theorem Get_node_lt {c v : Char} (l r e : TernarySearchTreeNode)
    (d : Option wordData) (rest : GoStr) (h : c < v) :
    Get (.node l r e v d) (c :: rest) = Get l (c :: rest) := by
  simp [Get, h]

theorem Get_node_gt {c v : Char} (l r e : TernarySearchTreeNode)
    (d : Option wordData) (rest : GoStr) (h : v < c) :
    Get (.node l r e v d) (c :: rest) = Get r (c :: rest) := by
  simp [Get, h, asymm h]

theorem Get_node_eq_last {v : Char} (l r e : TernarySearchTreeNode)
    (d : Option wordData) :
    Get (.node l r e v d) [v] = some (.node l r e v d) := by
  simp [Get]

theorem Get_node_eq_cons {v c2 : Char} (l r e : TernarySearchTreeNode)
    (d : Option wordData) (rest2 : GoStr) :
    Get (.node l r e v d) (v :: c2 :: rest2) = Get e (c2 :: rest2) := by
  simp [Get]

theorem keys_insertFresh (full : GoStr) (pos : Nat) (w : GoStr)
    (hw : w ≠ []) : keys (insertFresh full pos w) = [w] := by
  induction w with
  | nil => exact absurd rfl hw
  | cons c rest ih =>
    cases rest with
    | nil => simp [insertFresh, keys]
    | cons c2 rest2 =>
      rw [insertFresh]
      simp only [keys]
      rw [ih (by simp)]
      simp [keys]

theorem wf_insertFresh (full : GoStr) (pos : Nat) (w : GoStr) :
    wf (insertFresh full pos w) := by
  induction w with
  | nil => simp [insertFresh, wf]
  | cons c rest ih =>
    cases rest with
    | nil =>
      simp only [insertFresh, wf]
      refine ⟨trivial, trivial, trivial, ?_, ?_⟩ <;> simp [keys]
    | cons c2 rest2 =>
      simp only [insertFresh, wf]
      refine ⟨trivial, ih, trivial, ?_, ?_⟩ <;> simp [keys]

theorem storesFrom_insertFresh (full : GoStr) (pos : Nat) (w pre : GoStr)
    (hfull : full = pre ++ w) : storesFrom (insertFresh full pos w) pre := by
  induction w generalizing pre with
  | nil => simp [insertFresh, storesFrom]
  | cons c rest ih =>
    cases rest with
    | nil =>
      rw [insertFresh]
      show (∀ dd, some (⟨full, pos, 1⟩ : wordData) = some dd →
          dd.WordPtr = pre ++ [c]) ∧ _ ∧ _ ∧ _
      refine ⟨?_, trivial, trivial, trivial⟩
      intro dd hdd
      injection hdd with h
      rw [← h]
      exact hfull
    | cons c2 rest2 =>
      rw [insertFresh]
      simp only [storesFrom]
      refine ⟨fun dd hdd => absurd hdd (by simp), trivial, trivial, ?_⟩
      exact ih (pre ++ [c]) (by simpa using hfull)

theorem insertLoop_keys (full : GoStr) (pos : Nat)
    (n : TernarySearchTreeNode) (w : GoStr) (hw : w ≠ []) (hwf : wf n) :
    wf (insertLoop full pos n w) ∧
    (∀ k, k ∈ keys (insertLoop full pos n w) ↔ k = w ∨ k ∈ keys n) := by
  induction n generalizing w with
  | nil =>
    cases w with
    | nil => exact absurd rfl hw
    | cons c rest =>
      rw [show insertLoop full pos .nil (c :: rest) =
        insertFresh full pos (c :: rest) from rfl]
      refine ⟨wf_insertFresh _ _ _, ?_⟩
      intro k
      rw [keys_insertFresh _ _ _ (by simp)]
      simp [keys]
  | node l r e v d ihl ihr ihe =>
    cases w with
    | nil => exact absurd rfl hw
    | cons c rest =>
      obtain ⟨hwl, hwe, hwr, hbl, hbr⟩ := hwf
      rcases lt_trichotomy c v with hlt | heq | hgt
      · rw [insertLoop_node_lt _ _ _ _ _ _ _ hlt]
        obtain ⟨hw1, hm1⟩ := ihl (c :: rest) (by simp) hwl
        refine ⟨⟨hw1, hwe, hwr, ?_, hbr⟩, ?_⟩
        · intro k hk
          rcases (hm1 k).1 hk with hk | hk
          · exact ⟨c, rest, hk, hlt⟩
          · exact hbl k hk
        · intro k
          simp only [keys, List.mem_append, hm1 k]
          tauto
      · subst heq
        cases rest with
        | nil =>
          rw [insertLoop_node_eq_last]
          refine ⟨⟨hwl, hwe, hwr, hbl, hbr⟩, ?_⟩
          intro k
          cases d with
          | none =>
            simp only [keys, List.mem_append, Option.isSome_some,
              Option.isSome_none, Bool.false_eq_true, if_true, if_false,
              List.not_mem_nil, List.mem_singleton, or_false, false_or]
            tauto
          | some d0 =>
            simp only [keys, List.mem_append, Option.isSome_some, if_true,
              List.mem_singleton]
            tauto
        | cons c2 rest2 =>
          rw [insertLoop_node_eq_cons]
          obtain ⟨hw1, hm1⟩ := ihe (c2 :: rest2) (by simp) hwe
          refine ⟨⟨hwl, hw1, hwr, hbl, hbr⟩, ?_⟩
          intro k
          have hmap : ∀ X : TernarySearchTreeNode,
              k ∈ (keys X).map (c :: ·) ↔ ∃ t, t ∈ keys X ∧ k = c :: t := by
            intro X
            rw [List.mem_map]
            constructor
            · rintro ⟨t, ht, hkt⟩
              exact ⟨t, ht, hkt.symm⟩
            · rintro ⟨t, ht, hkt⟩
              exact ⟨t, ht, hkt.symm⟩
          simp only [keys, List.mem_append]
          constructor
          · rintro (((hk | hk) | hk) | hk)
            · exact Or.inr (Or.inl (Or.inl (Or.inl hk)))
            · exact Or.inr (Or.inl (Or.inl (Or.inr hk)))
            · rcases (hmap _).1 hk with ⟨t, ht, hkt⟩
              rcases (hm1 t).1 ht with ht' | ht'
              · subst ht'
                exact Or.inl (by rw [hkt])
              · exact Or.inr (Or.inl (Or.inr ((hmap _).2 ⟨t, ht', hkt⟩)))
            · exact Or.inr (Or.inr hk)
          · rintro (hk | (((hk | hk) | hk) | hk))
            · subst hk
              exact Or.inl (Or.inr ((hmap _).2
                ⟨c2 :: rest2, (hm1 _).2 (Or.inl rfl), rfl⟩))
            · exact Or.inl (Or.inl (Or.inl hk))
            · exact Or.inl (Or.inl (Or.inr hk))
            · rcases (hmap _).1 hk with ⟨t, ht, hkt⟩
              exact Or.inl (Or.inr ((hmap _).2 ⟨t, (hm1 _).2 (Or.inr ht), hkt⟩))
            · exact Or.inr hk
      · rw [insertLoop_node_gt _ _ _ _ _ _ _ hgt]
        obtain ⟨hw1, hm1⟩ := ihr (c :: rest) (by simp) hwr
        refine ⟨⟨hwl, hwe, hw1, hbl, ?_⟩, ?_⟩
        · intro k hk
          rcases (hm1 k).1 hk with hk | hk
          · exact ⟨c, rest, hk, hgt⟩
          · exact hbr k hk
        · intro k
          simp only [keys, List.mem_append, hm1 k]
          tauto

theorem insertLoop_stores (full : GoStr) (pos : Nat)
    (n : TernarySearchTreeNode) (w pre : GoStr) (hw : w ≠ [])
    (hfull : full = pre ++ w) (hst : storesFrom n pre) :
    storesFrom (insertLoop full pos n w) pre := by
  induction n generalizing w pre with
  | nil =>
    cases w with
    | nil => exact absurd rfl hw
    | cons c rest =>
      exact storesFrom_insertFresh full pos (c :: rest) pre hfull
  | node l r e v d ihl ihr ihe =>
    cases w with
    | nil => exact hst
    | cons c rest =>
      obtain ⟨hd0, hsl, hsr, hse⟩ := hst
      rcases lt_trichotomy c v with hlt | heq | hgt
      · rw [insertLoop_node_lt _ _ _ _ _ _ _ hlt]
        exact ⟨hd0, ihl (c :: rest) pre (by simp) hfull hsl, hsr, hse⟩
      · subst heq
        cases rest with
        | nil =>
          rw [insertLoop_node_eq_last]
          refine ⟨?_, hsl, hsr, hse⟩
          intro dd hdd
          injection hdd with hdd
          rw [← hdd]
          cases d with
          | none => exact hfull
          | some d0 => exact hd0 d0 rfl
        | cons c2 rest2 =>
          rw [insertLoop_node_eq_cons]
          refine ⟨hd0, hsl, hsr, ?_⟩
          exact ihe (c2 :: rest2) (pre ++ [c]) (by simp) (by simpa using hfull) hse
      · rw [insertLoop_node_gt _ _ _ _ _ _ _ hgt]
        exact ⟨hd0, hsl, ihr (c :: rest) pre (by simp) hfull hsr, hse⟩

theorem walkData_words (n : TernarySearchTreeNode) (pre : GoStr)
    (hst : storesFrom n pre) :
    (walkData n).map (·.WordPtr) = (keys n).map (pre ++ ·) := by
  induction n generalizing pre with
  | nil => rfl
  | node l r e v d ihl ihr ihe =>
    obtain ⟨hd0, hsl, hsr, hse⟩ := hst
    have hmid : (d.toList.map (·.WordPtr)) =
        (if d.isSome then [[v]] else ([] : List GoStr)).map (pre ++ ·) := by
      cases d with
      | none => rfl
      | some dd =>
        simp only [Option.toList, List.map_cons, List.map_nil]
        rw [hd0 dd rfl]
        rfl
    have hmape : (keys e).map ((pre ++ [v]) ++ ·) =
        ((keys e).map (v :: ·)).map (pre ++ ·) := by
      rw [List.map_map]
      apply List.map_congr_left
      intro k _
      simp
    simp only [walkData, keys, List.map_append]
    rw [ihl pre hsl, ihr pre hsr, ihe (pre ++ [v]) hse, hmid, hmape]

theorem keys_sorted (n : TernarySearchTreeNode) (hwf : wf n) :
    (keys n).Pairwise (· < ·) := by
  induction n with
  | nil => simp [keys]
  | node l r e v d ihl ihr ihe =>
    obtain ⟨hwl, hwe, hwr, hbl, hbr⟩ := hwf
    have hl := ihl hwl
    have he := ihe hwe
    have hr := ihr hwr
    have hmapsorted : ((keys e).map (v :: ·)).Pairwise (· < ·) := by
      rw [List.pairwise_map]
      exact he.imp fun h => List.Lex.cons h
    have hmidsorted : (if d.isSome then [[v]] else ([] : List GoStr)).Pairwise
        (· < ·) := by
      cases d <;> simp
    have hmem_mid : ∀ k ∈ (if d.isSome then [[v]] else ([] : List GoStr)),
        k = [v] := by
      cases d <;> simp
    have hmem_map : ∀ k ∈ (keys e).map (v :: ·),
        ∃ t, t ∈ keys e ∧ k = v :: t := by
      intro k hk
      rcases List.mem_map.1 hk with ⟨t, ht, hkt⟩
      exact ⟨t, ht, hkt.symm⟩
    simp only [keys]
    rw [List.pairwise_append]
    refine ⟨?_, ?_, ?_⟩
    · rw [List.pairwise_append]
      refine ⟨?_, hmapsorted, ?_⟩
      · rw [List.pairwise_append]
        refine ⟨hl, hmidsorted, ?_⟩
        · intro a ha b hb
          obtain ⟨c, t, hct, hcv⟩ := hbl a ha
          rw [hmem_mid b hb, hct]
          exact List.Lex.rel hcv
      · intro a ha b hb
        obtain ⟨t, ht, hbt⟩ := hmem_map b hb
        rcases List.mem_append.1 ha with ha | ha
        · obtain ⟨c, t', hct, hcv⟩ := hbl a ha
          rw [hct, hbt]
          exact List.Lex.rel hcv
        · rw [hmem_mid a ha, hbt]
          refine List.Lex.cons ?_
          have hne := keys_ne_nil e t ht
          cases t with
          | nil => exact absurd rfl hne
          | cons x xs => exact List.nil_lt_cons x xs
    · exact hr
    · intro a ha b hb
      obtain ⟨c, t, hct, hcv⟩ := hbr b hb
      rcases List.mem_append.1 ha with ha | ha
      · rcases List.mem_append.1 ha with ha | ha
        · obtain ⟨c', t', hct', hcv'⟩ := hbl a ha
          rw [hct, hct']
          exact List.Lex.rel (lt_trans hcv' hcv)
        · rw [hmem_mid a ha, hct]
          exact List.Lex.rel hcv
      · obtain ⟨t', ht', hat⟩ := hmem_map a ha
        rw [hat, hct]
        exact List.Lex.rel hcv

theorem PrefixSearch_node_lt {c v : Char} (l r e : TernarySearchTreeNode)
    (d : Option wordData) (rest : GoStr) (h : c < v) :
    PrefixSearch (.node l r e v d) (c :: rest) = PrefixSearch l (c :: rest) := by
  unfold PrefixSearch
  rw [Get_node_lt _ _ _ _ _ h]

theorem PrefixSearch_node_gt {c v : Char} (l r e : TernarySearchTreeNode)
    (d : Option wordData) (rest : GoStr) (h : v < c) :
    PrefixSearch (.node l r e v d) (c :: rest) = PrefixSearch r (c :: rest) := by
  unfold PrefixSearch
  rw [Get_node_gt _ _ _ _ _ h]

theorem PrefixSearch_node_eq_cons {v c2 : Char} (l r e : TernarySearchTreeNode)
    (d : Option wordData) (rest2 : GoStr) :
    PrefixSearch (.node l r e v d) (v :: c2 :: rest2) =
      PrefixSearch e (c2 :: rest2) := by
  unfold PrefixSearch
  rw [Get_node_eq_cons]

theorem PrefixSearch_node_eq_last {v : Char} (l r e : TernarySearchTreeNode)
    (d : Option wordData) :
    PrefixSearch (.node l r e v d) [v] = d.toList ++ walkData e := by
  unfold PrefixSearch
  rw [Get_node_eq_last]
  rfl

theorem map_toList_eq {v : Char} (d : Option wordData) (pre : GoStr)
    (hd0 : ∀ dd, d = some dd → dd.WordPtr = pre ++ [v]) :
    d.toList.map (·.WordPtr) =
      (if d.isSome then [[v]] else ([] : List GoStr)).map (pre ++ ·) := by
  cases d with
  | none => rfl
  | some dd =>
    simp only [Option.toList, List.map_cons, List.map_nil]
    rw [hd0 dd rfl]
    rfl

theorem map_cons_pre (pre : GoStr) (v : Char) (ks : List GoStr) :
    ks.map ((pre ++ [v]) ++ ·) = (ks.map (v :: ·)).map (pre ++ ·) := by
  rw [List.map_map]
  apply List.map_congr_left
  intro k _
  simp

theorem prefixSearch_eq_filter (n : TernarySearchTreeNode) (p pre : GoStr)
    (hp : p ≠ []) (hwf : wf n) (hst : storesFrom n pre) :
    (PrefixSearch n p).map (·.WordPtr) =
      ((keys n).filter (fun k => decide (p <+: k))).map (pre ++ ·) := by
  induction n generalizing p pre with
  | nil =>
    cases p with
    | nil => exact absurd rfl hp
    | cons c ps => rfl
  | node l r e v d ihl ihr ihe =>
    obtain ⟨hwl, hwe, hwr, hbl, hbr⟩ := hwf
    obtain ⟨hd0, hsl, hsr, hse⟩ := hst
    cases p with
    | nil => exact absurd rfl hp
    | cons c ps =>
      have hmem_mid : ∀ k ∈ (if d.isSome then [[v]] else ([] : List GoStr)),
          k = [v] := by
        cases d <;> simp
      rcases lt_trichotomy c v with hlt | heq | hgt
      · rw [PrefixSearch_node_lt _ _ _ _ _ hlt]
        simp only [keys, List.filter_append]
        have hmid : ((if d.isSome then [[v]] else ([] : List GoStr)).filter
            (fun k => decide (c :: ps <+: k))) = [] := by
          refine List.filter_eq_nil_iff.2 fun k hk => ?_
          rw [hmem_mid k hk]
          simp only [decide_eq_true_eq]
          intro hpre
          rcases List.cons_prefix_cons.1 hpre with ⟨hcv, -⟩
          exact absurd hcv (ne_of_lt hlt)
        have hmap : (((keys e).map (v :: ·)).filter
            (fun k => decide (c :: ps <+: k))) = [] := by
          refine List.filter_eq_nil_iff.2 fun k hk => ?_
          rcases List.mem_map.1 hk with ⟨t, ht, hkt⟩
          rw [← hkt]
          simp only [decide_eq_true_eq]
          intro hpre
          rcases List.cons_prefix_cons.1 hpre with ⟨hcv, -⟩
          exact absurd hcv (ne_of_lt hlt)
        have hhr : ((keys r).filter (fun k => decide (c :: ps <+: k))) = [] := by
          refine List.filter_eq_nil_iff.2 fun k hk => ?_
          obtain ⟨c', t', hct, hvk⟩ := hbr k hk
          rw [hct]
          simp only [decide_eq_true_eq]
          intro hpre
          rcases List.cons_prefix_cons.1 hpre with ⟨hcv, -⟩
          subst hcv
          exact absurd hlt (asymm hvk)
        rw [hmid, hmap, hhr]
        simp only [List.append_nil]
        exact ihl (c :: ps) pre (by simp) hwl hsl
      · subst heq
        have hfl : ((keys l).filter (fun k => decide (c :: ps <+: k))) = [] := by
          refine List.filter_eq_nil_iff.2 fun k hk => ?_
          obtain ⟨c', t', hct, hvk⟩ := hbl k hk
          rw [hct]
          simp only [decide_eq_true_eq]
          intro hpre
          rcases List.cons_prefix_cons.1 hpre with ⟨hcv, -⟩
          subst hcv
          exact absurd hvk (lt_irrefl _)
        have hfr : ((keys r).filter (fun k => decide (c :: ps <+: k))) = [] := by
          refine List.filter_eq_nil_iff.2 fun k hk => ?_
          obtain ⟨c', t', hct, hvk⟩ := hbr k hk
          rw [hct]
          simp only [decide_eq_true_eq]
          intro hpre
          rcases List.cons_prefix_cons.1 hpre with ⟨hcv, -⟩
          subst hcv
          exact absurd hvk (lt_irrefl _)
        cases ps with
        | nil =>
          rw [PrefixSearch_node_eq_last]
          simp only [keys, List.filter_append]
          have hmid : ((if d.isSome then [[c]] else ([] : List GoStr)).filter
              (fun k => decide ([c] <+: k))) =
              (if d.isSome then [[c]] else ([] : List GoStr)) := by
            refine List.filter_eq_self.2 fun k hk => ?_
            rw [hmem_mid k hk]
            simp
          have hmap : (((keys e).map (c :: ·)).filter
              (fun k => decide ([c] <+: k))) = (keys e).map (c :: ·) := by
            refine List.filter_eq_self.2 fun k hk => ?_
            rcases List.mem_map.1 hk with ⟨t, ht, hkt⟩
            rw [← hkt]
            simp [List.cons_prefix_cons]
          rw [hfl, hfr, hmid, hmap, List.map_append,
            walkData_words e (pre ++ [c]) hse,
            map_toList_eq d pre hd0, map_cons_pre]
          simp
        | cons c2 ps2 =>
          rw [PrefixSearch_node_eq_cons]
          simp only [keys, List.filter_append]
          have hmid : ((if d.isSome then [[c]] else ([] : List GoStr)).filter
              (fun k => decide (c :: c2 :: ps2 <+: k))) = [] := by
            refine List.filter_eq_nil_iff.2 fun k hk => ?_
            rw [hmem_mid k hk]
            simp only [decide_eq_true_eq]
            intro hpre
            rcases List.cons_prefix_cons.1 hpre with ⟨-, hps⟩
            rw [List.prefix_nil] at hps
            cases hps
          have hmap : (((keys e).map (c :: ·)).filter
              (fun k => decide (c :: c2 :: ps2 <+: k))) =
              ((keys e).filter (fun t => decide (c2 :: ps2 <+: t))).map (c :: ·) := by
            rw [List.filter_map]
            congr 1
            apply List.filter_congr
            intro t _
            simp [List.cons_prefix_cons]
          rw [hfl, hfr, hmid, hmap]
          simp only [List.nil_append, List.append_nil]
          rw [ihe (c2 :: ps2) (pre ++ [c]) (by simp) hwe hse, List.map_map]
          apply List.map_congr_left
          intro k _
          simp
      · rw [PrefixSearch_node_gt _ _ _ _ _ hgt]
        simp only [keys, List.filter_append]
        have hmid : ((if d.isSome then [[v]] else ([] : List GoStr)).filter
            (fun k => decide (c :: ps <+: k))) = [] := by
          refine List.filter_eq_nil_iff.2 fun k hk => ?_
          rw [hmem_mid k hk]
          simp only [decide_eq_true_eq]
          intro hpre
          rcases List.cons_prefix_cons.1 hpre with ⟨hcv, -⟩
          exact absurd hcv.symm (ne_of_lt hgt)
        have hmap : (((keys e).map (v :: ·)).filter
            (fun k => decide (c :: ps <+: k))) = [] := by
          refine List.filter_eq_nil_iff.2 fun k hk => ?_
          rcases List.mem_map.1 hk with ⟨t, ht, hkt⟩
          rw [← hkt]
          simp only [decide_eq_true_eq]
          intro hpre
          rcases List.cons_prefix_cons.1 hpre with ⟨hcv, -⟩
          exact absurd hcv.symm (ne_of_lt hgt)
        have hhl : ((keys l).filter (fun k => decide (c :: ps <+: k))) = [] := by
          refine List.filter_eq_nil_iff.2 fun k hk => ?_
          obtain ⟨c', t', hct, hvk⟩ := hbl k hk
          rw [hct]
          simp only [decide_eq_true_eq]
          intro hpre
          rcases List.cons_prefix_cons.1 hpre with ⟨hcv, -⟩
          subst hcv
          exact absurd hgt (asymm hvk)
        rw [hmid, hmap, hhl]
        simp only [List.nil_append, List.append_nil]
        exact ihr (c :: ps) pre (by simp) hwr hsr

end TernarySearchTreeNode

/-! ## Trees built by successive inserts -/

theorem TernarySearchTreeNode.wf_bare (v : Char) :
    TernarySearchTreeNode.wf (.node .nil .nil .nil v none) := by
  simp [TernarySearchTreeNode.wf, TernarySearchTreeNode.keys]

theorem TernarySearchTreeNode.storesFrom_bare (v : Char) (pre : GoStr) :
    TernarySearchTreeNode.storesFrom (.node .nil .nil .nil v none) pre := by
  simp [TernarySearchTreeNode.storesFrom]

open TernarySearchTreeNode in
/-- Invariant of a tree whose root was populated by `Insert` with the
words `ws` (all non-empty, none starting with NUL). -/
def builtInv (ws : List GoStr) (t : TernarySearchTree) : Prop :=
  wf t.root ∧ storesFrom t.root [] ∧
  (∀ k, k ∈ keys t.root ↔ k ∈ ws) ∧
  (∀ w ∈ ws, w.length ≤ t.longestWord) ∧
  (t.root.value = Char.ofNat 0 → t.root = newNode (Char.ofNat 0))

theorem builtInv_empty : builtInv [] NewTernarySearchTree := by
  refine ⟨TernarySearchTreeNode.wf_bare _, TernarySearchTreeNode.storesFrom_bare _ _,
    ?_, ?_, ?_⟩
  · intro k
    simp [TernarySearchTreeNode.keys, NewTernarySearchTree]
  · intro w hw
    cases hw
  · intro _
    rfl

theorem builtInv_insert (ws0 : List GoStr) (t : TernarySearchTree) (w : GoStr)
    (hinv : builtInv ws0 t) (hw : w ≠ [])
    (hnul : w.head? ≠ some (Char.ofNat 0)) :
    builtInv (ws0 ++ [w]) (t.Insert w) := by
  obtain ⟨hwf, hst, hmem, hlong, hsent⟩ := hinv
  have hlroot : (t.Insert w).root = t.root.Insert w t.words.length := rfl
  have hlong' : ∀ u ∈ ws0 ++ [w], u.length ≤ (t.Insert w).longestWord := by
    intro u hu
    rcases List.mem_append.1 hu with hu | hu
    · exact le_trans (hlong u hu) (le_max_left _ _)
    · rw [List.mem_singleton.1 hu]
      exact le_max_right _ _
  cases w with
  | nil => exact absurd rfl hw
  | cons c rest =>
  have hcne : c ≠ Char.ofNat 0 := by simpa using hnul
  rcases hroot : t.root with _ | ⟨l, r, e, v, d⟩
  · exfalso
    rw [hroot] at hsent
    exact TernarySearchTreeNode.noConfusion (hsent rfl)
  · rw [hroot] at hwf hst hsent
    have hmem' : ∀ k, k ∈ TernarySearchTreeNode.keys (.node l r e v d) ↔ k ∈ ws0 := by
      intro k
      rw [← hroot]
      exact hmem k
    unfold builtInv
    rw [hlroot, hroot, TernarySearchTreeNode.Insert_node_step]
    by_cases hv : v = Char.ofNat 0
    · have hbare := hsent (by simp [TernarySearchTreeNode.value, hv])
      injection hbare with h1 h2 h3 h4 h5
      subst h1; subst h2; subst h3; subst h5
      rw [if_pos hv]
      have hwf' : TernarySearchTreeNode.wf
          (.node .nil .nil .nil c none) := TernarySearchTreeNode.wf_bare c
      have hst' : TernarySearchTreeNode.storesFrom
          (.node .nil .nil .nil c none) [] :=
        TernarySearchTreeNode.storesFrom_bare c []
      have hkeys' : TernarySearchTreeNode.keys
          (TernarySearchTreeNode.node .nil .nil .nil c none) = [] := by
        simp [TernarySearchTreeNode.keys]
      obtain ⟨hw1, hm1⟩ := TernarySearchTreeNode.insertLoop_keys (c :: rest)
        t.words.length (.node .nil .nil .nil c none) (c :: rest) (by simp) hwf'
      refine ⟨hw1, ?_, ?_, hlong', ?_⟩
      · exact TernarySearchTreeNode.insertLoop_stores _ _ _ _ []
          (by simp) (by simp) hst'
      · intro k
        rw [hm1 k, hkeys']
        have hkeys0 : TernarySearchTreeNode.keys
            (TernarySearchTreeNode.node .nil .nil .nil v none) = [] := by
          simp [TernarySearchTreeNode.keys]
        have hempty : ∀ u, u ∈ ws0 ↔ False := by
          intro u
          rw [← hmem' u, hkeys0]
          simp
        simp [hempty]
      · obtain ⟨l', r', e', d', hsh⟩ := TernarySearchTreeNode.insertLoop_shape
          (c :: rest) t.words.length .nil .nil .nil c none (c :: rest)
        rw [hsh]
        intro h0
        exact absurd (by simpa [TernarySearchTreeNode.value] using h0) hcne
    · rw [if_neg hv]
      obtain ⟨hw1, hm1⟩ := TernarySearchTreeNode.insertLoop_keys (c :: rest)
        t.words.length (.node l r e v d) (c :: rest) (by simp) hwf
      refine ⟨hw1, ?_, ?_, hlong', ?_⟩
      · exact TernarySearchTreeNode.insertLoop_stores _ _ _ _ []
          (by simp) (by simp) hst
      · intro k
        rw [hm1 k, hmem' k]
        simp [or_comm]
      · obtain ⟨l', r', e', d', hsh⟩ := TernarySearchTreeNode.insertLoop_shape
          (c :: rest) t.words.length l r e v d (c :: rest)
        rw [hsh]
        intro h0
        exact absurd (by simpa [TernarySearchTreeNode.value] using h0) hv

theorem buildTree_inv (ws : List GoStr) (hne : ∀ w ∈ ws, w ≠ [])
    (hnul : ∀ w ∈ ws, w.head? ≠ some (Char.ofNat 0)) :
    builtInv ws (buildTree ws) := by
  suffices h : ∀ (ws0 : List GoStr) (t : TernarySearchTree), builtInv ws0 t →
      (∀ w ∈ ws, w ≠ []) → (∀ w ∈ ws, w.head? ≠ some (Char.ofNat 0)) →
      builtInv (ws0 ++ ws) (ws.foldl TernarySearchTree.Insert t) by
    simpa using h [] NewTernarySearchTree builtInv_empty hne hnul
  clear hne hnul
  induction ws with
  | nil =>
    intro ws0 t hinv _ _
    simpa using hinv
  | cons w ws ih =>
    intro ws0 t hinv hne hnul
    have hstep := builtInv_insert ws0 t w hinv (hne w (by simp))
      (hnul w (by simp))
    have hres := ih (ws0 ++ [w]) (t.Insert w) hstep
      (fun u hu => hne u (by simp [hu])) (fun u hu => hnul u (by simp [hu]))
    simpa [List.append_assoc] using hres

/-- C2 (amended): for every list of distinct non-empty words, none of
which begins with the NUL character, and every non-empty prefix `p`,
`Autocomplete(p, ByWord)` on the tree built from those words is exactly
the lexicographically sorted list of the stored words that start with `p`
(and it is empty whenever `p` is longer than the longest stored word).
The code returns `[]` for the empty prefix, and NUL-led words collide
with the root sentinel; see the counterexample. -/
theorem tst_autocomplete_byword (ws : List GoStr) (p : GoStr)
    (hnd : ws.Nodup) (hne : ∀ w ∈ ws, w ≠ [])
    (hnul : ∀ w ∈ ws, w.head? ≠ some (Char.ofNat 0)) (hp : p ≠ []) :
    (buildTree ws).Autocomplete p .sortByWord =
      sortLex (ws.filter fun w => decide (p <+: w)) := by
  obtain ⟨hwf, hst, hmem, hlong, -⟩ := buildTree_inv ws hne hnul
  unfold TernarySearchTree.Autocomplete
  by_cases hlen : p.length > (buildTree ws).longestWord
  · rw [if_pos hlen]
    have hnilf : ws.filter (fun w => decide (p <+: w)) = [] := by
      refine List.filter_eq_nil_iff.2 fun w hw => ?_
      simp only [decide_eq_true_eq]
      intro hpre
      have := le_trans hpre.length_le (hlong w hw)
      omega
    rw [hnilf]
    rfl
  · rw [if_neg hlen]
    show ((buildTree ws).root.PrefixSearch p).map (·.WordPtr) = _
    rw [TernarySearchTreeNode.prefixSearch_eq_filter _ p [] hp hwf hst]
    have hid : ((TernarySearchTreeNode.keys (buildTree ws).root).filter
        (fun k => decide (p <+: k))).map (([] : GoStr) ++ ·) =
        (TernarySearchTreeNode.keys (buildTree ws).root).filter
          (fun k => decide (p <+: k)) := by
      apply List.map_congr_left ?_ |>.trans (List.map_id _)
      intro k _
      simp
    rw [hid]
    have hfsorted : ((TernarySearchTreeNode.keys (buildTree ws).root).filter
        (fun k => decide (p <+: k))).Pairwise (· ≤ ·) :=
      ((TernarySearchTreeNode.keys_sorted _ hwf).filter _).imp le_of_lt
    have hfnodup : ((TernarySearchTreeNode.keys (buildTree ws).root).filter
        (fun k => decide (p <+: k))).Nodup :=
      ((TernarySearchTreeNode.keys_sorted _ hwf).imp ne_of_lt).filter _
    have hsnodup : (sortLex (ws.filter fun w => decide (p <+: w))).Nodup :=
      ((List.perm_insertionSort _ _).nodup_iff).2 (hnd.filter _)
    have hperm : ((TernarySearchTreeNode.keys (buildTree ws).root).filter
        (fun k => decide (p <+: k))).Perm
        (sortLex (ws.filter fun w => decide (p <+: w))) := by
      rw [List.perm_ext_iff_of_nodup hfnodup hsnodup]
      intro a
      rw [List.mem_filter]
      unfold sortLex
      rw [List.mem_insertionSort, List.mem_filter, hmem a]
    exact List.eq_of_perm_of_sorted hperm hfsorted
      (List.sorted_insertionSort _ _)

/-- C2 witness: a concrete distinct word set and prefix. -/
theorem tst_autocomplete_byword_witness :
    ([gs "pod", gs "po", gs "deploy"].Nodup ∧
      (∀ w ∈ [gs "pod", gs "po", gs "deploy"], w ≠ []) ∧
      (∀ w ∈ [gs "pod", gs "po", gs "deploy"],
        w.head? ≠ some (Char.ofNat 0)) ∧ gs "po" ≠ []) ∧
    (buildTree [gs "pod", gs "po", gs "deploy"]).Autocomplete (gs "po")
        .sortByWord =
      sortLex ([gs "pod", gs "po", gs "deploy"].filter
        fun w => decide (gs "po" <+: w)) :=
  ⟨⟨by decide, by decide, by decide, by decide⟩,
    tst_autocomplete_byword [gs "pod", gs "po", gs "deploy"] (gs "po")
      (by decide) (by decide) (by decide) (by decide)⟩

/-! ## Reachable tree states and the Sync live set -/

/-- The mutating operations of the tree API. -/
inductive TreeOp where
  | ins (w : GoStr)
  | insAll (ws : List GoStr)
  | del (w : GoStr)
  | sync (ws : List GoStr)

/-- Apply one operation. -/
def applyOp (t : TernarySearchTree) : TreeOp → TernarySearchTree
  | .ins w => t.Insert w
  | .insAll ws => t.InsertAll ws
  | .del w => t.Delete w
  | .sync ws => t.Sync ws

/-- The tree reached from a fresh tree by a sequence of operations. -/
def runOps (ops : List TreeOp) : TernarySearchTree :=
  ops.foldl applyOp NewTernarySearchTree

/-- A word that does not begin with the NUL character (and so cannot
collide with the root's 0 sentinel). -/
def headOK (w : GoStr) : Prop := w.head? ≠ some (Char.ofNat 0)

/-- All words named by an operation are NUL-free. -/
def opOK : TreeOp → Prop
  | .ins w => headOK w
  | .insAll ws => ∀ w ∈ ws, headOK w
  | .del _ => True
  | .sync ws => ∀ w ∈ ws, headOK w

open TernarySearchTreeNode in
/-- The state invariant of trees reachable through NUL-free operations:
the root has not adopted the sentinel, and every stored datum records its
own descent word, a positive refcount bounded by the number of live slots
holding that word, and a position whose slot holds the word. -/
def goodTree (t : TernarySearchTree) : Prop :=
  (t.root ≠ .nil ∧
    (t.root.value = Char.ofNat 0 → t.root = newNode (Char.ofNat 0))) ∧
  ∀ w d, dataAt t.root w = some d →
    headOK w ∧ w ≠ [] ∧ d.WordPtr = w ∧ 1 ≤ d.Refcount ∧
    d.Refcount ≤ (t.Words.count w : Int) ∧
    t.words.getD d.Position none = some w

theorem goodTree_sentinelClear {t : TernarySearchTree} (h : goodTree t)
    (w : GoStr) : TernarySearchTreeNode.sentinelClear t.root w :=
  ⟨h.1.1, fun h0 => Or.inr (h.1.2 h0)⟩

theorem sentinelClear_root {n : TernarySearchTreeNode} {w : GoStr}
    (h : TernarySearchTreeNode.sentinelClear n w) (hok : headOK w) :
    n ≠ .nil ∧ (n.value = Char.ofNat 0 →
      n = TernarySearchTreeNode.newNode (Char.ofNat 0)) := by
  refine ⟨h.1, fun h0 => ?_⟩
  rcases h.2 h0 with hh | hb
  · exact absurd hh hok
  · exact hb

theorem goodTree_new : goodTree NewTernarySearchTree := by
  refine ⟨⟨by simp [NewTernarySearchTree], fun _ => rfl⟩, ?_⟩
  intro w d hd
  rw [show NewTernarySearchTree.root =
    TernarySearchTreeNode.node .nil .nil .nil (Char.ofNat 0) none from rfl,
    TernarySearchTreeNode.dataAt_bare] at hd
  cases hd

/-! ### List bookkeeping helpers -/

theorem getD_some_lt (l : List (Option GoStr)) (p : Nat) (x : GoStr)
    (h : l.getD p none = some x) : p < l.length := by
  by_contra hc
  rw [List.getD_eq_default _ _ (by omega)] at h
  cases h

theorem mem_filterMap_of_getD (l : List (Option GoStr)) (p : Nat) (x : GoStr)
    (h : l.getD p none = some x) : x ∈ l.filterMap id := by
  rw [List.getD_eq_getElem?_getD] at h
  rcases hog : l[p]? with _ | o
  · rw [hog] at h
    cases h
  · rw [hog] at h
    simp only [Option.getD_some] at h
    subst h
    exact List.mem_filterMap.2 ⟨some x, List.getElem?_mem hog, rfl⟩

theorem getD_append_last (l : List (Option GoStr)) (a : Option GoStr) :
    (l ++ [a]).getD l.length none = a := by
  rw [List.getD_eq_getElem?_getD, List.getElem?_append]
  simp

theorem getD_append_left' (l l' : List (Option GoStr)) (p : Nat)
    (h : p < l.length) : (l ++ l').getD p none = l.getD p none :=
  List.getD_append l l' none p h

theorem getD_set_ne (l : List (Option GoStr)) (p q : Nat) (a : Option GoStr)
    (h : p ≠ q) : (l.set p a).getD q none = l.getD q none := by
  rw [List.getD_eq_getElem?_getD, List.getD_eq_getElem?_getD,
    List.getElem?_set_ne h]

theorem count_filterMap_set_none (l : List (Option GoStr)) (p : Nat)
    (x : GoStr) (h : l.getD p none = some x) (y : GoStr) :
    ((l.set p none).filterMap id).count y =
      (l.filterMap id).count y - (if y = x then 1 else 0) := by
  induction l generalizing p with
  | nil =>
    rw [List.getD_eq_default _ _ (by simp)] at h
    cases h
  | cons o l' ih =>
    cases p with
    | zero =>
      have ho : o = some x := by simpa using h
      subst ho
      show ((none :: l').filterMap id).count y = _
      by_cases hyx : y = x
      · subst hyx
        simp [List.count_cons]
      · simp [List.count_cons, hyx, Ne.symm hyx]
    | succ p' =>
      have h' : l'.getD p' none = some x := by simpa using h
      cases o with
      | none =>
        show ((none :: l'.set p' none).filterMap id).count y = _
        simpa using ih p' h'
      | some z =>
        have hx1 : x ∈ l'.filterMap id := mem_filterMap_of_getD l' p' x h'
        have hcx : 1 ≤ (l'.filterMap id).count x := List.count_pos_iff.2 hx1
        have hih := ih p' h'
        show (z :: (l'.set p' none).filterMap id).count y =
          (z :: l'.filterMap id).count y - (if y = x then 1 else 0)
        rw [List.count_cons, List.count_cons, hih]
        by_cases hyx : y = x
        · subst hyx
          by_cases hzy : z = y
          · simp [hzy]
            omega
          · simp [hzy]
        · simp [hyx]

open TernarySearchTreeNode

theorem Tree_Delete_eq (t : TernarySearchTree) (u : GoStr) :
    t.Delete u = match freedPos (dataAt t.root u) with
      | none => { t with root := (t.root.Delete u).1 }
      | some p =>
        { root := (t.root.Delete u).1, words := t.words.set p none,
          longestWord := t.longestWord, length := t.length - 1,
          dirty := t.dirty + 1 } := by
  unfold TernarySearchTree.Delete
  have h2 := (Delete_spec t.root u).2
  rcases hdel : t.root.Delete u with ⟨r', o⟩
  rw [hdel] at h2
  simp only at h2
  rw [← h2]
  cases o <;> rfl

theorem Insert_goodTree (t : TernarySearchTree) (w : GoStr)
    (hg : goodTree t) (hok : headOK w) :
    goodTree (t.Insert w) ∧
    (∀ w', w' ≠ w → dataAt (t.Insert w).root w' = dataAt t.root w') ∧
    (w ≠ [] → (dataAt (t.Insert w).root w).isSome = true) := by
  obtain ⟨hroot, hdata⟩ := hg
  have hsc : ∀ u, sentinelClear t.root u :=
    fun u => goodTree_sentinelClear ⟨hroot, hdata⟩ u
  have hWords : (t.Insert w).Words = t.Words ++ [w] := by
    show (t.words ++ [some w]).filterMap id = _
    rw [List.filterMap_append]
    rfl
  by_cases hw : w = []
  · subst hw
    refine ⟨⟨hroot, ?_⟩, fun w' _ => rfl, fun hne => absurd rfl hne⟩
    intro w' d hd
    obtain ⟨hok', hne', hwp', hrc', hcnt', hpos'⟩ := hdata w' d hd
    refine ⟨hok', hne', hwp', hrc', ?_, ?_⟩
    · rw [hWords, List.count_append]
      push_cast
      omega
    · show (t.words ++ [some []]).getD d.Position none = some w'
      rw [getD_append_left' t.words [some []] d.Position
        (getD_some_lt t.words d.Position w' hpos')]
      exact hpos'
  · have hthis : dataAt (t.Insert w).root w =
        some (bumpData w t.words.length (dataAt t.root w)) := by
      rw [TernarySearchTree.Insert_root]
      exact Insert_dataAt_self t.root w t.words.length hw (hsc w)
    have hframe : ∀ w', w' ≠ w →
        dataAt (t.Insert w).root w' = dataAt t.root w' := by
      intro w' hne
      rw [TernarySearchTree.Insert_root]
      exact Insert_dataAt_frame t.root w w' t.words.length hne (hsc w)
    have hsc' : sentinelClear (t.Insert w).root w := by
      rw [TernarySearchTree.Insert_root]
      exact Insert_sentinelClear t.root w t.words.length hw (hsc w)
    refine ⟨⟨sentinelClear_root hsc' hok, ?_⟩, hframe,
      fun _ => by rw [hthis]; rfl⟩
    intro w' d hd
    by_cases hne : w' = w
    · subst hne
      have hdd : d = bumpData w' t.words.length (dataAt t.root w') := by
        rw [hthis] at hd
        exact (Option.some.inj hd).symm
      have hc : (t.Insert w').Words.count w' = t.Words.count w' + 1 := by
        rw [hWords, List.count_append]
        simp [List.count_cons]
      cases hda : dataAt t.root w' with
      | none =>
        rw [hda] at hdd
        simp only [bumpData] at hdd
        have hdr : d.Refcount = 1 := by rw [hdd]
        have hdw : d.WordPtr = w' := by rw [hdd]
        have hdp : d.Position = t.words.length := by rw [hdd]
        refine ⟨hok, hw, hdw, by omega, ?_, ?_⟩
        · rw [hc]
          push_cast
          omega
        · rw [hdp]
          show (t.words ++ [some w']).getD t.words.length none = some w'
          exact getD_append_last t.words (some w')
      | some d0 =>
        obtain ⟨hok0, hne0, hwp0, hrc0, hcnt0, hpos0⟩ := hdata w' d0 hda
        rw [hda] at hdd
        simp only [bumpData] at hdd
        have hdr : d.Refcount = d0.Refcount + 1 := by rw [hdd]
        have hdw : d.WordPtr = d0.WordPtr := by rw [hdd]
        have hdp : d.Position = t.words.length := by rw [hdd]
        refine ⟨hok, hw, by rw [hdw]; exact hwp0, by omega, ?_, ?_⟩
        · rw [hc]
          push_cast
          omega
        · rw [hdp]
          show (t.words ++ [some w']).getD t.words.length none = some w'
          exact getD_append_last t.words (some w')
    · rw [hframe w' hne] at hd
      obtain ⟨hok', hne', hwp', hrc', hcnt', hpos'⟩ := hdata w' d hd
      refine ⟨hok', hne', hwp', hrc', ?_, ?_⟩
      · rw [hWords, List.count_append]
        push_cast
        omega
      · show (t.words ++ [some w]).getD d.Position none = some w'
        rw [getD_append_left' t.words [some w] d.Position
          (getD_some_lt t.words d.Position w' hpos')]
        exact hpos'

theorem Delete_goodTree (t : TernarySearchTree) (u : GoStr)
    (hg : goodTree t) :
    goodTree (t.Delete u) ∧
    (∀ w, w ≠ u → dataAt (t.Delete u).root w = dataAt t.root w ∧
      (t.Delete u).Words.count w = t.Words.count w) ∧
    dataAt (t.Delete u).root u = decData (dataAt t.root u) := by
  obtain ⟨hroot, hdata⟩ := hg
  have hself : dataAt (t.Delete u).root u = decData (dataAt t.root u) := by
    rw [TernarySearchTree.Delete_root]
    exact (Delete_spec t.root u).1
  have hframe : ∀ w, w ≠ u →
      dataAt (t.Delete u).root w = dataAt t.root w := by
    intro w hne
    rw [TernarySearchTree.Delete_root]
    exact Delete_dataAt_frame t.root u w hne
  have hsc1 : sentinelClear (t.Delete u).root [] := by
    rw [TernarySearchTree.Delete_root]
    exact Delete_sentinelClear t.root [] u
      (goodTree_sentinelClear ⟨hroot, hdata⟩ [])
  have hroot' := sentinelClear_root hsc1 (by simp [headOK])
  rcases hfp : freedPos (dataAt t.root u) with _ | p
  · have hwords : (t.Delete u).words = t.words := by
      rw [Tree_Delete_eq, hfp]
    have hWords : (t.Delete u).Words = t.Words := by
      show (t.Delete u).words.filterMap id = _
      rw [hwords]
      rfl
    refine ⟨⟨hroot', ?_⟩, fun w hne => ⟨hframe w hne, by rw [hWords]⟩, hself⟩
    intro w d hd
    by_cases hne : w = u
    · subst hne
      rw [hself] at hd
      cases hda : dataAt t.root w with
      | none =>
        rw [hda] at hd
        simp only [decData] at hd
        cases hd
      | some d0 =>
        obtain ⟨hok0, hne0, hwp0, hrc0, hcnt0, hpos0⟩ := hdata w d0 hda
        rw [hda] at hd
        simp only [decData] at hd
        by_cases hrc1 : d0.Refcount - 1 ≤ 0
        · rw [if_pos hrc1] at hd
          cases hd
        · rw [if_neg hrc1] at hd
          have hdd : d = ⟨d0.WordPtr, d0.Position, d0.Refcount - 1⟩ :=
            (Option.some.inj hd).symm
          have hdr : d.Refcount = d0.Refcount - 1 := by rw [hdd]
          have hdw : d.WordPtr = d0.WordPtr := by rw [hdd]
          have hdp : d.Position = d0.Position := by rw [hdd]
          refine ⟨hok0, hne0, by rw [hdw]; exact hwp0, by omega, ?_, ?_⟩
          · rw [hWords]
            omega
          · rw [hdp, hwords]
            exact hpos0
    · rw [hframe w hne] at hd
      obtain ⟨hok', hne', hwp', hrc', hcnt', hpos'⟩ := hdata w d hd
      refine ⟨hok', hne', hwp', hrc', by rw [hWords]; exact hcnt', ?_⟩
      rw [hwords]
      exact hpos'
  · have hex : ∃ d0, dataAt t.root u = some d0 ∧
        d0.Refcount - 1 ≤ 0 ∧ p = d0.Position := by
      cases hda : dataAt t.root u with
      | none =>
        rw [hda] at hfp
        simp only [freedPos] at hfp
        cases hfp
      | some d0 =>
        rw [hda] at hfp
        simp only [freedPos] at hfp
        by_cases h1 : d0.Refcount - 1 ≤ 0
        · rw [if_pos h1] at hfp
          exact ⟨d0, rfl, h1, (Option.some.inj hfp).symm⟩
        · rw [if_neg h1] at hfp
          cases hfp
    obtain ⟨d0, hda, hrc1, hp⟩ := hex
    obtain ⟨hoku, hneu, hwpu, hrcu, hcntu, hposu⟩ := hdata u d0 hda
    subst hp
    have hwords : (t.Delete u).words = t.words.set d0.Position none := by
      rw [Tree_Delete_eq, hfp]
    have hcnt : ∀ y, (t.Delete u).Words.count y =
        t.Words.count y - (if y = u then 1 else 0) := by
      intro y
      have hW : (t.Delete u).Words = (t.words.set d0.Position none).filterMap id := by
        show (t.Delete u).words.filterMap id = _
        rw [hwords]
      rw [hW]
      exact count_filterMap_set_none t.words d0.Position u hposu y
    have hselfnone : dataAt (t.Delete u).root u = none := by
      rw [hself, hda]
      simp only [decData]
      rw [if_pos hrc1]
    refine ⟨⟨hroot', ?_⟩, fun w hne => ⟨hframe w hne, ?_⟩, hself⟩
    · intro w d hd
      by_cases hne : w = u
      · subst hne
        rw [hselfnone] at hd
        cases hd
      · rw [hframe w hne] at hd
        obtain ⟨hok', hne', hwp', hrc', hcnt', hpos'⟩ := hdata w d hd
        refine ⟨hok', hne', hwp', hrc', ?_, ?_⟩
        · rw [hcnt w, if_neg hne]
          simp only [Nat.sub_zero]
          exact hcnt'
        · rw [hwords]
          have hnep : d.Position ≠ d0.Position := by
            intro hEq
            rw [hEq, hposu] at hpos'
            exact hne (Option.some.inj hpos').symm
          rw [getD_set_ne t.words d0.Position d.Position none (Ne.symm hnep)]
          exact hpos'
    · rw [hcnt w, if_neg hne]
      simp only [Nat.sub_zero]

theorem getD_append_right_off (l l' : List (Option GoStr)) (i : Nat) :
    (l ++ l').getD (l.length + i) none = l'.getD i none := by
  rw [List.getD_eq_getElem?_getD, List.getD_eq_getElem?_getD,
    List.getElem?_append_right (by omega : l.length ≤ l.length + i),
    show l.length + i - l.length = i from by omega]

/-- The per-word invariant the `InsertAll` fold maintains at the node
level, stated against the final slot array `W'` and a refcount bound
`B`. -/
def nodeInv (W' : List (Option GoStr)) (B : GoStr → Int)
    (n : TernarySearchTreeNode) : Prop :=
  ∀ w d, dataAt n w = some d →
    headOK w ∧ w ≠ [] ∧ d.WordPtr = w ∧ 1 ≤ d.Refcount ∧
    d.Refcount ≤ B w ∧ W'.getD d.Position none = some w

theorem nodeInv_mono (W' : List (Option GoStr)) (B B' : GoStr → Int)
    (n : TernarySearchTreeNode) (h : ∀ w, B w ≤ B' w)
    (hinv : nodeInv W' B n) : nodeInv W' B' n := by
  intro w d hd
  obtain ⟨h1, h2, h3, h4, h5, h6⟩ := hinv w d hd
  exact ⟨h1, h2, h3, h4, le_trans h5 (h w), h6⟩

theorem nodeInv_insert (W' : List (Option GoStr)) (B : GoStr → Int)
    (n : TernarySearchTreeNode) (w0 : GoStr) (p0 : Nat)
    (hB : ∀ w, 0 ≤ B w)
    (hr : n ≠ .nil ∧ (n.value = Char.ofNat 0 → n = newNode (Char.ofNat 0)))
    (hinv : nodeInv W' B n)
    (hok : headOK w0) (hslot : W'.getD p0 none = some w0) :
    (n.Insert w0 p0 ≠ .nil ∧ ((n.Insert w0 p0).value = Char.ofNat 0 →
      n.Insert w0 p0 = newNode (Char.ofNat 0))) ∧
    nodeInv W' (fun w => if w = w0 then B w + 1 else B w) (n.Insert w0 p0) ∧
    (∀ w, (dataAt (n.Insert w0 p0) w).isSome = true ↔
      (dataAt n w).isSome = true ∨ (w = w0 ∧ w ≠ [])) := by
  by_cases hw0 : w0 = []
  · subst hw0
    have hid : n.Insert [] p0 = n := rfl
    rw [hid]
    refine ⟨hr, ?_, fun w => ?_⟩
    · intro w d hd
      obtain ⟨h1, h2, h3, h4, h5, h6⟩ := hinv w d hd
      refine ⟨h1, h2, h3, h4, ?_, h6⟩
      show d.Refcount ≤ if w = [] then B w + 1 else B w
      rw [if_neg h2]
      exact h5
    · constructor
      · exact fun h => Or.inl h
      · rintro (h | ⟨hw, hne⟩)
        · exact h
        · exact absurd hw hne
  · have hsc : sentinelClear n w0 := ⟨hr.1, fun h0 => Or.inr (hr.2 h0)⟩
    have hsc' := Insert_sentinelClear n w0 p0 hw0 hsc
    have hself := Insert_dataAt_self n w0 p0 hw0 hsc
    have hframe := fun w' hne => Insert_dataAt_frame n w0 w' p0 hne hsc
    refine ⟨sentinelClear_root hsc' hok, ?_, fun w => ?_⟩
    · intro w d hd
      by_cases hne : w = w0
      · subst hne
        have hdd : d = bumpData w p0 (dataAt n w) := by
          rw [hself] at hd
          exact (Option.some.inj hd).symm
        cases hda : dataAt n w with
        | none =>
          rw [hda] at hdd
          simp only [bumpData] at hdd
          have hdr : d.Refcount = 1 := by rw [hdd]
          have hdw : d.WordPtr = w := by rw [hdd]
          have hdp : d.Position = p0 := by rw [hdd]
          refine ⟨hok, hw0, hdw, by omega, ?_, by rw [hdp]; exact hslot⟩
          show d.Refcount ≤ if w = w then B w + 1 else B w
          rw [if_pos rfl]
          have := hB w
          omega
        | some d0 =>
          obtain ⟨h1, h2, h3, h4, h5, h6⟩ := hinv w d0 hda
          rw [hda] at hdd
          simp only [bumpData] at hdd
          have hdr : d.Refcount = d0.Refcount + 1 := by rw [hdd]
          have hdw : d.WordPtr = d0.WordPtr := by rw [hdd]
          have hdp : d.Position = p0 := by rw [hdd]
          refine ⟨hok, hw0, by rw [hdw]; exact h3, by omega, ?_,
            by rw [hdp]; exact hslot⟩
          show d.Refcount ≤ if w = w then B w + 1 else B w
          rw [if_pos rfl]
          omega
      · rw [hframe w hne] at hd
        obtain ⟨h1, h2, h3, h4, h5, h6⟩ := hinv w d hd
        refine ⟨h1, h2, h3, h4, ?_, h6⟩
        show d.Refcount ≤ if w = w0 then B w + 1 else B w
        rw [if_neg hne]
        exact h5
    · by_cases hne : w = w0
      · subst hne
        rw [hself]
        simp [hw0]
      · rw [hframe w hne]
        constructor
        · exact fun h => Or.inl h
        · rintro (h | ⟨hew, _⟩)
          · exact h
          · exact absurd hew hne

theorem nodeInv_foldIns (W' : List (Option GoStr)) :
    ∀ (prs : List (GoStr × Nat)) (B : GoStr → Int) (n : TernarySearchTreeNode),
    (∀ w, 0 ≤ B w) →
    (n ≠ .nil ∧ (n.value = Char.ofNat 0 → n = newNode (Char.ofNat 0))) →
    nodeInv W' B n →
    (∀ q ∈ prs, headOK q.1 ∧ W'.getD q.2 none = some q.1) →
    (prs.foldl (fun m q => m.Insert q.1 q.2) n ≠ .nil ∧
      ((prs.foldl (fun m q => m.Insert q.1 q.2) n).value = Char.ofNat 0 →
        prs.foldl (fun m q => m.Insert q.1 q.2) n = newNode (Char.ofNat 0))) ∧
    nodeInv W' (fun w => B w + ((prs.map Prod.fst).count w : Int))
      (prs.foldl (fun m q => m.Insert q.1 q.2) n) ∧
    (∀ w, (dataAt (prs.foldl (fun m q => m.Insert q.1 q.2) n) w).isSome = true ↔
      (dataAt n w).isSome = true ∨ (w ∈ prs.map Prod.fst ∧ w ≠ [])) := by
  intro prs
  induction prs with
  | nil =>
    intro B n hB hr hinv _
    refine ⟨hr, nodeInv_mono W' B _ n (fun w => by simp) hinv, fun w => ?_⟩
    simp
  | cons q prs' ih =>
    intro B n hB hr hinv hps
    have hq := hps q (List.mem_cons_self q prs')
    obtain ⟨hr', hinv', heff'⟩ :=
      nodeInv_insert W' B n q.1 q.2 hB hr hinv hq.1 hq.2
    have hB' : ∀ w, 0 ≤ (fun w => if w = q.1 then B w + 1 else B w) w := by
      intro w
      by_cases hwe : w = q.1
      · subst hwe
        show 0 ≤ if q.1 = q.1 then B q.1 + 1 else B q.1
        rw [if_pos rfl]
        have := hB q.1
        omega
      · show 0 ≤ if w = q.1 then B w + 1 else B w
        rw [if_neg hwe]
        exact hB w
    obtain ⟨hr2, hinv2, heff2⟩ := ih (fun w => if w = q.1 then B w + 1 else B w)
      (n.Insert q.1 q.2) hB' hr' hinv'
      (fun p hp => hps p (List.mem_cons_of_mem q hp))
    rw [show (q :: prs').foldl (fun m p => m.Insert p.1 p.2) n =
      prs'.foldl (fun m p => m.Insert p.1 p.2) (n.Insert q.1 q.2) from rfl]
    refine ⟨hr2, ?_, fun w => ?_⟩
    · refine nodeInv_mono W' _ _ _ (fun w => ?_) hinv2
      show (if w = q.1 then B w + 1 else B w) + ((prs'.map Prod.fst).count w : Int) ≤
        B w + (((q :: prs').map Prod.fst).count w : Int)
      rw [show (q :: prs').map Prod.fst = q.1 :: prs'.map Prod.fst from rfl,
        List.count_cons]
      by_cases hwe : w = q.1
      · subst hwe
        rw [if_pos rfl, if_pos (by simp)]
        push_cast
        omega
      · rw [if_neg hwe, if_neg (by simpa using Ne.symm hwe)]
        push_cast
        omega
    · rw [heff2 w, heff' w,
        show (q :: prs').map Prod.fst = q.1 :: prs'.map Prod.fst from rfl,
        List.mem_cons]
      tauto

theorem InsertAll_goodTree (t : TernarySearchTree) (ws : List GoStr)
    (hg : goodTree t) (hok : ∀ w ∈ ws, headOK w) :
    goodTree (t.InsertAll ws) ∧
    (∀ w, (dataAt (t.InsertAll ws).root w).isSome = true ↔
      (dataAt t.root w).isSome = true ∨
        (w ∈ ws.filter (fun w => ¬ t.root.Has w) ∧ w ≠ [])) ∧
    (t.InsertAll ws).Words = t.Words ++ ws.filter (fun w => ¬ t.root.Has w) := by
  obtain ⟨hroot, hdata⟩ := hg
  have hWords : (t.InsertAll ws).Words =
      t.Words ++ ws.filter (fun w => ¬ t.root.Has w) := by
    show (t.words ++ (ws.filter (fun w => ¬ t.root.Has w)).map some).filterMap id = _
    rw [List.filterMap_append]
    congr 1
    simp
  have hfst : ((ws.filter (fun w => ¬ t.root.Has w)).enum.map
      (fun p => (p.2, t.words.length + p.1))).map Prod.fst =
      ws.filter (fun w => ¬ t.root.Has w) := by
    rw [List.map_map,
      show (Prod.fst ∘ fun p : Nat × GoStr => (p.2, t.words.length + p.1)) =
        Prod.snd from rfl]
    exact List.enum_map_snd _
  have hps : ∀ q ∈ (ws.filter (fun w => ¬ t.root.Has w)).enum.map
      (fun p => (p.2, t.words.length + p.1)),
      headOK q.1 ∧ (t.words ++ (ws.filter (fun w => ¬ t.root.Has w)).map some).getD
        q.2 none = some q.1 := by
    intro q hq
    obtain ⟨p, hp, hpq⟩ := List.mem_map.1 hq
    have hget : (ws.filter (fun w => ¬ t.root.Has w))[p.1]? = some p.2 :=
      List.mem_enum_iff_getElem?.1 hp
    have hmem : p.2 ∈ ws.filter (fun w => ¬ t.root.Has w) :=
      List.snd_mem_of_mem_enum hp
    have hmem' : p.2 ∈ ws := (List.mem_filter.1 hmem).1
    subst hpq
    refine ⟨hok p.2 hmem', ?_⟩
    rw [getD_append_right_off, List.getD_eq_getElem?_getD,
      List.getElem?_map, hget]
    rfl
  have hinv0 : nodeInv (t.words ++ (ws.filter (fun w => ¬ t.root.Has w)).map some)
      (fun w => (t.Words.count w : Int)) t.root := by
    intro w d hd
    obtain ⟨h1, h2, h3, h4, h5, h6⟩ := hdata w d hd
    refine ⟨h1, h2, h3, h4, h5, ?_⟩
    rw [getD_append_left' t.words _ d.Position (getD_some_lt t.words d.Position w h6)]
    exact h6
  obtain ⟨hr2, hinv2, heff2⟩ := nodeInv_foldIns
    (t.words ++ (ws.filter (fun w => ¬ t.root.Has w)).map some)
    ((ws.filter (fun w => ¬ t.root.Has w)).enum.map
      (fun p => (p.2, t.words.length + p.1)))
    (fun w => (t.Words.count w : Int)) t.root
    (fun w => by positivity) hroot hinv0 hps
  have hrt : (t.InsertAll ws).root =
      ((ws.filter (fun w => ¬ t.root.Has w)).enum.map
        (fun p => (p.2, t.words.length + p.1))).foldl
        (fun m q => m.Insert q.1 q.2) t.root := rfl
  refine ⟨⟨by rw [hrt]; exact hr2, ?_⟩, fun w => ?_, hWords⟩
  · intro w d hd
    rw [hrt] at hd
    obtain ⟨h1, h2, h3, h4, h5, h6⟩ := hinv2 w d hd
    rw [hfst] at h5
    refine ⟨h1, h2, h3, h4, ?_, h6⟩
    rw [hWords, List.count_append]
    push_cast at h5 ⊢
    omega
  · rw [hrt, heff2 w, hfst]

theorem decData_iterate_none (m : Nat) :
    decData^[m] (none : Option wordData) = none := by
  induction m with
  | zero => rfl
  | succ k ih =>
    rw [Function.iterate_succ_apply, show decData none = none from rfl, ih]

theorem decData_iterate_kill (m : Nat) :
    ∀ d : wordData, 1 ≤ d.Refcount → d.Refcount ≤ (m : Int) →
    decData^[m] (some d) = none := by
  induction m with
  | zero =>
    intro d h1 h2
    exfalso
    omega
  | succ k ih =>
    intro d h1 h2
    rw [Function.iterate_succ_apply]
    by_cases hrc : d.Refcount - 1 ≤ 0
    · rw [show decData (some d) = none from by
        simp only [decData]; rw [if_pos hrc]]
      exact decData_iterate_none k
    · rw [show decData (some d) =
          some ⟨d.WordPtr, d.Position, d.Refcount - 1⟩ from by
        simp only [decData]; rw [if_neg hrc]]
      refine ih ⟨d.WordPtr, d.Position, d.Refcount - 1⟩ ?_ ?_
      · show (1 : Int) ≤ d.Refcount - 1
        omega
      · show d.Refcount - 1 ≤ (k : Int)
        push_cast at h2
        omega

theorem syncDel_spec (W : List GoStr) :
    ∀ (ix : List GoStr) (t' : TernarySearchTree), goodTree t' →
    goodTree (ix.foldl (fun acc u => if u ∈ W then acc else acc.Delete u) t') ∧
    (∀ w, w ∈ W →
      dataAt (ix.foldl (fun acc u => if u ∈ W then acc else acc.Delete u) t').root w
        = dataAt t'.root w ∧
      (ix.foldl (fun acc u => if u ∈ W then acc else acc.Delete u) t').Words.count w
        = t'.Words.count w) ∧
    (∀ w, w ∉ W →
      dataAt (ix.foldl (fun acc u => if u ∈ W then acc else acc.Delete u) t').root w
        = decData^[ix.count w] (dataAt t'.root w)) := by
  intro ix
  induction ix with
  | nil =>
    intro t' hg
    exact ⟨hg, fun w _ => ⟨rfl, rfl⟩, fun w _ => by simp⟩
  | cons u ix' ih =>
    intro t' hg
    rw [show (u :: ix').foldl (fun acc v => if v ∈ W then acc else acc.Delete v) t' =
      ix'.foldl (fun acc v => if v ∈ W then acc else acc.Delete v)
        (if u ∈ W then t' else t'.Delete u) from rfl]
    by_cases hu : u ∈ W
    · rw [if_pos hu]
      obtain ⟨h1, h2, h3⟩ := ih t' hg
      refine ⟨h1, h2, fun w hw => ?_⟩
      rw [h3 w hw, List.count_cons,
        if_neg (by simpa using fun hEq : u = w => hw (hEq ▸ hu)), Nat.add_zero]
    · rw [if_neg hu]
      obtain ⟨hgd, hfr, hself⟩ := Delete_goodTree t' u hg
      obtain ⟨h1, h2, h3⟩ := ih (t'.Delete u) hgd
      refine ⟨h1, fun w hw => ?_, fun w hw => ?_⟩
      · have hwu : w ≠ u := fun hEq => hu (hEq ▸ hw)
        obtain ⟨hf1, hf2⟩ := hfr w hwu
        obtain ⟨hh1, hh2⟩ := h2 w hw
        exact ⟨by rw [hh1, hf1], by rw [hh2, hf2]⟩
      · by_cases hwu : w = u
        · subst hwu
          rw [h3 w hw, hself, List.count_cons, if_pos (by simp),
            ← Function.iterate_succ_apply]
        · obtain ⟨hf1, _⟩ := hfr w (by simpa using hwu)
          rw [h3 w hw, hf1, List.count_cons,
            if_neg (by simpa using fun hEq : u = w => hwu hEq.symm), Nat.add_zero]

theorem Sync_spec (t : TernarySearchTree) (W : List GoStr)
    (hg : goodTree t) (hok : ∀ w ∈ W, headOK w) :
    goodTree (t.Sync W) ∧
    (∀ w, w ∈ W → w ≠ [] →
      (t.Sync W).Has w = true ∧ w ∈ (t.Sync W).Words) ∧
    (∀ w, w ∉ W → (t.Sync W).Has w = false) := by
  by_cases hW : W = []
  · subst hW
    rw [show t.Sync [] = t.Reset from rfl]
    refine ⟨goodTree_new, fun w hw _ => absurd hw (List.not_mem_nil w),
      fun w _ => ?_⟩
    rw [TernarySearchTree.Has_eq,
      show t.Reset.root =
        TernarySearchTreeNode.node .nil .nil .nil (Char.ofNat 0) none from rfl,
      dataAt_bare]
    rfl
  · have hg1 : goodTree (if t.dirtyExceeded then t.Reset else t) := by
      by_cases hd : t.dirtyExceeded
      · rw [if_pos hd]
        exact goodTree_new
      · rw [if_neg hd]
        exact hg
    set t1 := if t.dirtyExceeded then t.Reset else t with ht1
    have hsync : t.Sync W = t1.Words.foldl
        (fun acc w => if w ∈ W then acc else acc.Delete w) (t1.InsertAll W) := by
      unfold TernarySearchTree.Sync
      rw [if_neg hW]
    obtain ⟨hg2, heff2, hW2⟩ := InsertAll_goodTree t1 W hg1 hok
    obtain ⟨hg3, hin3, hout3⟩ := syncDel_spec W t1.Words (t1.InsertAll W) hg2
    refine ⟨by rw [hsync]; exact hg3, fun w hw hwne => ?_, fun w hw => ?_⟩
    · have hsome : (dataAt (t1.InsertAll W).root w).isSome = true := by
        refine (heff2 w).2 ?_
        by_cases hhas : t1.root.Has w = true
        · left
          rw [← Has_eq_isSome_dataAt]
          exact hhas
        · right
          exact ⟨List.mem_filter.2 ⟨hw, by simpa using hhas⟩, hwne⟩
      constructor
      · rw [TernarySearchTree.Has_eq, hsync, (hin3 w hw).1]
        exact hsome
      · have hcnt : (t.Sync W).Words.count w = (t1.InsertAll W).Words.count w := by
          rw [hsync]
          exact (hin3 w hw).2
        have hpos : 1 ≤ (t1.InsertAll W).Words.count w := by
          rcases hda : dataAt (t1.InsertAll W).root w with _ | d
          · rw [hda] at hsome
            simp at hsome
          · obtain ⟨_, _, _, h4, h5, _⟩ := hg2.2 w d hda
            omega
        exact List.count_pos_iff.1 (by rw [hcnt]; omega)
    · rw [TernarySearchTree.Has_eq, hsync, hout3 w hw]
      rcases hda : dataAt (t1.InsertAll W).root w with _ | d
      · rw [decData_iterate_none]
        rfl
      · obtain ⟨_, _, _, h4, h5, _⟩ := hg2.2 w d hda
        have hcf : (W.filter (fun u => ¬ t1.root.Has u)).count w = 0 := by
          by_contra hc
          exact hw (List.mem_filter.1
            (List.count_pos_iff.1 (Nat.pos_of_ne_zero hc))).1
        rw [hW2, List.count_append, hcf, Nat.add_zero] at h5
        rw [decData_iterate_kill _ d h4 h5]
        rfl

theorem goodTree_applyOp (t : TernarySearchTree) (op : TreeOp)
    (hg : goodTree t) (hop : opOK op) : goodTree (applyOp t op) := by
  cases op with
  | ins w => exact (Insert_goodTree t w hg hop).1
  | insAll ws => exact (InsertAll_goodTree t ws hg hop).1
  | del w => exact (Delete_goodTree t w hg).1
  | sync ws => exact (Sync_spec t ws hg hop).1

theorem runOps_good (ops : List TreeOp) (hops : ∀ op ∈ ops, opOK op) :
    goodTree (runOps ops) := by
  have hfold : ∀ (l : List TreeOp) (t : TernarySearchTree), goodTree t →
      (∀ op ∈ l, opOK op) → goodTree (l.foldl applyOp t) := by
    intro l
    induction l with
    | nil =>
      intro t ht _
      exact ht
    | cons op l' ih =>
      intro t ht hl
      exact ih (applyOp t op)
        (goodTree_applyOp t op ht (hl op (List.mem_cons_self op l')))
        (fun p hp => hl p (List.mem_cons_of_mem op hp))
  exact hfold ops NewTernarySearchTree goodTree_new hops

/-- C3 (amended): for every prior tree state reachable by a sequence of
`Insert`/`InsertAll`/`Delete`/`Sync` operations whose words do not begin
with the NUL character (duplicate insertions included), and every word
list `W` of non-empty NUL-free words, after `Sync W` the live set is
exactly the set of `W`: `Has w` agrees with `W.contains w` for every
string `w`, and every element of `W` appears in `Words()`.  (`Words()`
itself may additionally retain stale duplicate-insert slots, so it is not
exactly `set(W)` — see the counterexample.) -/
theorem sync_live_set (ops : List TreeOp) (W : List GoStr) (w : GoStr)
    (hops : ∀ op ∈ ops, opOK op)
    (hW : ∀ u ∈ W, u ≠ [] ∧ headOK u) :
    ((runOps ops).Sync W).Has w = W.contains w ∧
    (w ∈ W → w ∈ ((runOps ops).Sync W).Words) := by
  have hg := runOps_good ops hops
  obtain ⟨hgs, hin, hout⟩ := Sync_spec (runOps ops) W hg (fun u hu => (hW u hu).2)
  by_cases hw : w ∈ W
  · obtain ⟨h1, h2⟩ := hin w hw (hW w hw).1
    refine ⟨?_, fun _ => h2⟩
    rw [h1]
    exact (List.elem_eq_true_of_mem hw).symm
  · refine ⟨?_, fun hmem => absurd hmem hw⟩
    rw [hout w hw]
    cases hcw : W.contains w
    · rfl
    · exact absurd (List.mem_of_elem_eq_true hcw) hw

theorem sync_live_set_witness :
    ((runOps [TreeOp.ins (gs "a"), TreeOp.ins (gs "a")]).Sync [gs "b"]).Has
      (gs "b") = true ∧
    gs "b" ∈ ((runOps [TreeOp.ins (gs "a"),
      TreeOp.ins (gs "a")]).Sync [gs "b"]).Words := by
  have h := sync_live_set [TreeOp.ins (gs "a"), TreeOp.ins (gs "a")]
    [gs "b"] (gs "b")
    (by
      intro op hop
      rcases List.mem_cons.1 hop with hEq | hop'
      · subst hEq
        show (gs "a").head? ≠ some (Char.ofNat 0)
        decide
      · rcases List.mem_cons.1 hop' with hEq | hop''
        · subst hEq
          show (gs "a").head? ≠ some (Char.ofNat 0)
          decide
        · exact absurd hop'' (List.not_mem_nil op))
    (by
      intro u hu
      rcases List.mem_cons.1 hu with hEq | hu'
      · subst hEq
        refine ⟨by decide, ?_⟩
        show (gs "b").head? ≠ some (Char.ofNat 0)
        decide
      · exact absurd hu' (List.not_mem_nil u))
  exact ⟨by rw [h.1]; decide, h.2 (by decide)⟩
